import Mathlib

/-!
Verification of the smee non-bonded potential energy engine
(`smee/potentials/nonbonded.py` and `smee/potentials/_potentials.py`).

The Python tensor code is shallowly embedded: tensors become lists, float
arithmetic becomes real arithmetic, fancy indexing becomes `List.getD`, and
in-place scatter writes become folds over `List.set`.  Functions that can
crash in Python (assertion failures, indexing a missing element) return
`Option`.  Outputs of the external neighbour-list library (NNPOps) are taken
as inputs of the periodic kernels.
-/

namespace Smee


/-! ## Pair enumeration and the canonical upper-triangular index

`compute_pairwise` enumerates all unordered particle pairs with
`torch.triu_indices(n_particles, n_particles, 1).T` (row-major: `(0,1), (0,2),
..., (0,n-1), (1,2), ...`) and addresses the dense per-pair scale vector with
the inline index formula `(i * (2 * n_particles - i - 1)) / 2 + j - i - 1`.
The same index is used by `smee.utils.to_upper_tri_idx`, which is not among
the sources; the spec gives the identical formula
`idx(i,j) = i*(2N-i-1)/2 + j-i-1`, so that helper is modelled by the same
definition. -/

/-- All unordered pairs `(i, j)` with `i < j < n`, in the row-major order
produced by `torch.triu_indices(n, n, 1).T`. -/
def triuIndices (n : ℕ) : List (ℕ × ℕ) :=
  (List.range n).flatMap fun i => (List.range' (i + 1) (n - (i + 1))).map fun j => (i, j)

/-- The canonical upper-triangular linear index
`i * (2 * n - i - 1) / 2 + j - i - 1` from `compute_pairwise`
(also `smee.utils.to_upper_tri_idx`, modelled from the spec formula). -/
def toUpperTriIdx (n i j : ℕ) : ℕ :=
  i * (2 * n - i - 1) / 2 + j - i - 1

/-- Number of pairs listed before the block of first component `i`:
the partial sums of the block lengths `n - 1 - k` for `k < i`. -/
def triBase (n : ℕ) : ℕ → ℕ
  | 0 => 0
  | i + 1 => triBase n i + (n - (i + 1))

/-! ## Scatter writes and the dense per-pair scale vector

`pair_scales[exclusions_1d] = exclusion_scales` is an in-place scatter;
duplicate indices resolve last-write-wins, which the sequential `List.set`
fold reproduces.  `smee.utils.ones_like(n_pairs, ...)` (not among the
sources) is the all-ones vector of the given length, per the spec
(every pair defaults to scale 1). -/

/-- Sequential scatter write: `base[k] = v` for each `(k, v)` in order. -/
def scatterList (base : List ℝ) (writes : List (ℕ × ℝ)) : List ℝ :=
  writes.foldl (fun acc w => acc.set w.1 w.2) base

/-- Row-wise ascending sort of an index pair, as done by
`exclusions.sort(dim=1)` before canonical indexing. -/
def canonPair (p : ℕ × ℕ) : ℕ × ℕ := (min p.1 p.2, max p.1 p.2)

/-- The dense per-pair scale vector: all `n_pairs` entries default to 1, then
each exclusion pair is row-sorted, mapped through the canonical
upper-triangular index and overwritten with its scale factor. -/
def pairScalesVec (nPairs n : ℕ) (exclusions : List (ℕ × ℕ))
    (exclusionScales : List ℝ) : List ℝ :=
  scatterList (List.replicate nPairs 1)
    (((exclusions.map fun p => toUpperTriIdx n (canonPair p).1 (canonPair p).2).zip
      exclusionScales))

/-- Scale factor of an unordered pair as the spec describes it: the stored
scale for an excluded pair, and 1 for every other pair. -/
def exclScale (exclusions : List (ℕ × ℕ)) (exclusionScales : List ℝ)
    (p : ℕ × ℕ) : ℝ :=
  match ((exclusions.map canonPair).zip exclusionScales).find? (fun q => q.1 = p) with
  | some q => q.2
  | none => 1

/-! ## Exhaustive pairwise geometry (`compute_pairwise`) and the direct kernels -/

/-- Default coordinate used for out-of-range particle lookups. -/
def origin : ℝ × ℝ × ℝ := (0, 0, 0)

/-- Squared distance: componentwise difference `conf[j] - conf[i]`, squared and
summed. -/
def sqDist (a b : ℝ × ℝ × ℝ) : ℝ :=
  (b.1 - a.1) * (b.1 - a.1) + (b.2.1 - a.2.1) * (b.2.1 - a.2.1)
    + (b.2.2 - a.2.2) * (b.2.2 - a.2.2)

/-- Model of `compute_pairwise` for one conformer: all upper-triangular pairs, their
squared distances, and the dense per-pair scale vector with the exclusions
scattered in. -/
def computePairwise (conformer : List (ℝ × ℝ × ℝ)) (exclusions : List (ℕ × ℕ))
    (exclusionScales : List ℝ) : List (ℕ × ℕ) × List ℝ × List ℝ :=
  (triuIndices conformer.length,
   (triuIndices conformer.length).map fun p =>
     sqDist (conformer.getD p.1 origin) (conformer.getD p.2 origin),
   pairScalesVec (triuIndices conformer.length).length conformer.length
     exclusions exclusionScales)

/-- Lorentz-Berthelot combination rules: `(sqrt(εa·εb), (σa+σb)/2)`. -/
noncomputable def lorentzBerthelot (epsilonA epsilonB sigmaA sigmaB : ℝ) : ℝ × ℝ :=
  (Real.sqrt (epsilonA * epsilonB), 0.5 * (sigmaA + sigmaB))

/-- Entry `parameters[i, k]` of a parameter matrix stored as a list of rows. -/
def pcol (parameters : List (List ℝ)) (i k : ℕ) : ℝ :=
  (parameters.getD i []).getD k 0

/-- Model of `compute_lj_energy` (direct, no cutoff) for one conformer: per pair,
`scale * 4ε * (x * (x - 1))` with `x = σ⁶ / d²³` and Lorentz-Berthelot
combined `ε, σ`, summed. -/
noncomputable def computeLjEnergy (conformer : List (ℝ × ℝ × ℝ))
    (parameters : List (List ℝ)) (exclusions : List (ℕ × ℕ))
    (exclusionScales : List ℝ) : ℝ :=
  (((computePairwise conformer exclusions exclusionScales).1.zip
      ((computePairwise conformer exclusions exclusionScales).2.1.zip
        (computePairwise conformer exclusions exclusionScales).2.2)).map fun q =>
    q.2.2 * 4.0
      * (lorentzBerthelot (pcol parameters q.1.1 0) (pcol parameters q.1.2 0)
          (pcol parameters q.1.1 1) (pcol parameters q.1.2 1)).1
      * ((lorentzBerthelot (pcol parameters q.1.1 0) (pcol parameters q.1.2 0)
            (pcol parameters q.1.1 1) (pcol parameters q.1.2 1)).2 ^ 6 / q.2.1 ^ 3
          * ((lorentzBerthelot (pcol parameters q.1.1 0) (pcol parameters q.1.2 0)
              (pcol parameters q.1.1 1) (pcol parameters q.1.2 1)).2 ^ 6 / q.2.1 ^ 3
            - 1.0))).sum

/-- Model of `compute_coulomb_energy` (direct, no cutoff) for one conformer: per pair,
`kE * scale * qᵢ * qⱼ * rsqrt(d²)`, summed.  The Coulomb pre-factor, computed
by the external units library from fundamental constants, is the parameter
`kE`. -/
noncomputable def computeCoulombEnergy (kE : ℝ) (conformer : List (ℝ × ℝ × ℝ))
    (parameters : List (List ℝ)) (exclusions : List (ℕ × ℕ))
    (exclusionScales : List ℝ) : ℝ :=
  (((computePairwise conformer exclusions exclusionScales).1.zip
      ((computePairwise conformer exclusions exclusionScales).2.1.zip
        (computePairwise conformer exclusions exclusionScales).2.2)).map fun q =>
    kE * q.2.2 * pcol parameters q.1.1 0 * pcol parameters q.1.2 0
      * (Real.sqrt q.2.1)⁻¹).sum

/-! ## Spec-side descriptions of the direct kernels -/

/-- All unordered pairs `i < j` of particles below `n`, as a finite set. -/
def pairsFinset (n : ℕ) : Finset (ℕ × ℕ) :=
  (Finset.range n ×ˢ Finset.range n).filter fun p => p.1 < p.2

/-- Distance between particles `i` and `j` of a conformer. -/
noncomputable def distance (conformer : List (ℝ × ℝ × ℝ)) (i j : ℕ) : ℝ :=
  Real.sqrt (sqDist (conformer.getD i origin) (conformer.getD j origin))

/-- Unscaled Lennard-Jones energy of one pair,
`4ε[(σ/r)¹² - (σ/r)⁶] = 4ε(x(x-1))` with `x = σ⁶/(r²)³`. -/
noncomputable def ljPairEnergy (conformer : List (ℝ × ℝ × ℝ))
    (parameters : List (List ℝ)) (i j : ℕ) : ℝ :=
  4 * (lorentzBerthelot (pcol parameters i 0) (pcol parameters j 0)
        (pcol parameters i 1) (pcol parameters j 1)).1
    * ((lorentzBerthelot (pcol parameters i 0) (pcol parameters j 0)
          (pcol parameters i 1) (pcol parameters j 1)).2 ^ 6
        / sqDist (conformer.getD i origin) (conformer.getD j origin) ^ 3
      * ((lorentzBerthelot (pcol parameters i 0) (pcol parameters j 0)
            (pcol parameters i 1) (pcol parameters j 1)).2 ^ 6
          / sqDist (conformer.getD i origin) (conformer.getD j origin) ^ 3 - 1))

/-- Unscaled Coulomb energy of one pair, `kE·qᵢ·qⱼ/r`. -/
noncomputable def coulombPairEnergy (kE : ℝ) (conformer : List (ℝ × ℝ × ℝ))
    (parameters : List (List ℝ)) (i j : ℕ) : ℝ :=
  kE * pcol parameters i 0 * pcol parameters j 0 / distance conformer i j

/-! ## Data model

The tensor container classes (`TensorSystem`, `TensorTopology`,
`NonbondedParameterMap`, `TensorPotential`) are defined outside the sources;
they are modelled from the spec's data model section.  Only the fields the
sources read are included. -/

/-- Modelled from the spec: the non-bonded `ParameterMap` variant — an
assignment matrix (`n_particles × n_parameter_types`), exclusion index pairs
local to the topology, and for each exclusion an index into the potential's
attribute columns selecting its scale factor. -/
structure NonbondedParameterMap where
  assignmentMatrix : List (List ℝ)
  exclusions : List (ℕ × ℕ)
  exclusionScaleIdxs : List ℕ

/-- Modelled from the spec: a topology holds a particle count and, per
interaction type name, a non-bonded parameter map.  (The sources also read
`n_atoms`; the spec's data model has a single per-topology particle count, so
both are this field.) -/
structure TensorTopology where
  nParticles : ℕ
  parameters : String → NonbondedParameterMap

/-- Modelled from the spec: one interaction type's global parameter table with
its type tag, functional-form tag, parameter matrix, parameter keys (opaque,
order-aligned with parameter rows), attribute names and attribute values. -/
structure TensorPotential where
  type : String
  fn : String
  parameters : List (List ℝ)
  parameterKeys : List ℕ
  attributeCols : List String
  attributes : List ℝ

/-- Modelled from the spec: a system is an ordered sequence of
(topology, copy-count) pairs. -/
structure TensorSystem where
  topologies : List (TensorTopology × ℕ)

/-- Modelled from the spec: the total particle count of a system. -/
def TensorSystem.nParticles (s : TensorSystem) : ℕ :=
  (s.topologies.map fun tc => tc.2 * tc.1.nParticles).sum

/-- Attribute lookup
`potential.attributes[potential.attribute_cols.index(name)]`. -/
def potentialAttr (potential : TensorPotential) (name : String) : ℝ :=
  potential.attributes.getD (potential.attributeCols.indexOf name) 0

/-! ## Parameter and exclusion broadcasting -/

/-- Product of two matrices stored as lists of rows
(`assignment_matrix @ potential.parameters`). -/
def matMul (A B : List (List ℝ)) : List (List ℝ) :=
  A.map fun row => (List.range (B.headD []).length).map fun j =>
    ((row.zip B).map fun q => q.1 * q.2.getD j 0).sum

/-- Model of `broadcast_parameters`: per topology, multiply the assignment matrix by
the global parameter table, replicate the per-particle rows `n_copies` times,
and stack the blocks in topology order. -/
def broadcastParameters (system : TensorSystem) (potential : TensorPotential) :
    List (List ℝ) :=
  (system.topologies.map fun tc =>
    (List.replicate tc.2
      (matMul (tc.1.parameters potential.type).assignmentMatrix
        potential.parameters)).flatten).flatten

/-- Loop body of `broadcast_exclusions`: the accumulator carries
`(idx_offset, exclusion index rows so far, scale rows so far)`; each topology
appends, for every copy `c`, its local exclusion pairs shifted by
`idx_offset + c * n_particles` and the scale factors looked up from the
potential's attribute vector at each exclusion's stored attribute-column
index. -/
def broadcastExclusionsStep (potential : TensorPotential)
    (acc : ℕ × List (ℕ × ℕ) × List ℝ) (tc : TensorTopology × ℕ) :
    ℕ × List (ℕ × ℕ) × List ℝ :=
  (acc.1 + tc.2 * tc.1.nParticles,
   acc.2.1 ++ (List.range tc.2).flatMap fun c =>
     (tc.1.parameters potential.type).exclusions.map fun p =>
       (acc.1 + c * tc.1.nParticles + p.1, acc.1 + c * tc.1.nParticles + p.2),
   acc.2.2 ++ (List.range tc.2).flatMap fun _ =>
     (tc.1.parameters potential.type).exclusionScaleIdxs.map fun k =>
       potential.attributes.getD k 0)

/-- Model of `broadcast_exclusions`: full-system exclusion index list and matching
scale-factor vector. -/
def broadcastExclusions (system : TensorSystem) (potential : TensorPotential) :
    List (ℕ × ℕ) × List ℝ :=
  ((system.topologies.foldl (broadcastExclusionsStep potential) (0, [], [])).2.1,
   (system.topologies.foldl (broadcastExclusionsStep potential) (0, [], [])).2.2)

/-- Model of `_compute_pair_scales`: dense scale vector of length
`n_particles * (n_particles - 1) / 2` for the full system. -/
def computePairScales (system : TensorSystem) (potential : TensorPotential) :
    List ℝ :=
  pairScalesVec (system.nParticles * (system.nParticles - 1) / 2)
    system.nParticles
    (broadcastExclusions system potential).1
    (broadcastExclusions system potential).2

/-- Particle count of all topology blocks preceding topology `t`
(used by the amended offset description). -/
def topologyOffset (system : TensorSystem) (t : ℕ) : ℕ :=
  ((system.topologies.take t).map fun tc => tc.2 * tc.1.nParticles).sum

/-- Number of broadcast exclusion entries contributed by the topology blocks
preceding topology `t`. -/
def exclusionEntriesBefore (system : TensorSystem) (potential : TensorPotential)
    (t : ℕ) : ℕ :=
  ((system.topologies.take t).map fun tc =>
    tc.2 * (tc.1.parameters potential.type).exclusions.length).sum

/-! ## Switching function and the periodic LJ pair sum -/

/-- Switching factor of `_compute_lj_energy_periodic`: the quintic polynomial
`1 - 6x⁵ + 15x⁴ - 10x³` with `x = (r - rs)/(rc - rs)`, overridden to 1 where
`r < rs` and then to 0 where `r > rc`. -/
noncomputable def switchFn (rs rc r : ℝ) : ℝ :=
  if r > rc then 0
  else if r < rs then 1
  else 1 - 6 * ((r - rs) / (rc - rs)) ^ 5 + 15 * ((r - rs) / (rc - rs)) ^ 4
    - 10 * ((r - rs) / (rc - rs)) ^ 3

/-- Neighbour-list pair sum of `_compute_lj_energy_periodic`: per pair at
distance `r`, `switch_fn * pair_scale * 4ε * (x(x-1))` with `x = (σ/r)⁶`,
the pair scale gathered from the dense vector at the canonical index, and
`switch_fn = 1` when no switch distance is given.  The neighbour pairs and
distances produced by the external `NNPOps` search are inputs. -/
noncomputable def ljEnergyPeriodicPairs (parameters : List (List ℝ))
    (pairScalesFull : List ℝ) (cutoff : ℝ) (switchDistance : Option ℝ)
    (pairs : List (ℕ × ℕ)) (distances : List ℝ) : ℝ :=
  ((pairs.zip distances).map fun q =>
    (match switchDistance with
     | none => 1.0
     | some rs => switchFn rs cutoff q.2)
    * pairScalesFull.getD (toUpperTriIdx parameters.length q.1.1 q.1.2) 1
    * 4.0
    * (lorentzBerthelot (pcol parameters q.1.1 0) (pcol parameters q.1.2 0)
        (pcol parameters q.1.1 1) (pcol parameters q.1.2 1)).1
    * (((lorentzBerthelot (pcol parameters q.1.1 0) (pcol parameters q.1.2 0)
          (pcol parameters q.1.1 1) (pcol parameters q.1.2 1)).2 / q.2) ^ 6
      * (((lorentzBerthelot (pcol parameters q.1.1 0) (pcol parameters q.1.2 0)
            (pcol parameters q.1.1 1) (pcol parameters q.1.2 1)).2 / q.2) ^ 6
        - 1.0))).sum

/-- Spec-side unswitched term of one neighbour-list pair:
`pair_scale * 4ε * (x(x-1))` with `x = (σ/r)⁶`. -/
noncomputable def ljPeriodicRawTerm (parameters : List (List ℝ))
    (pairScalesFull : List ℝ) (q : (ℕ × ℕ) × ℝ) : ℝ :=
  pairScalesFull.getD (toUpperTriIdx parameters.length q.1.1 q.1.2) 1
    * 4.0
    * (lorentzBerthelot (pcol parameters q.1.1 0) (pcol parameters q.1.2 0)
        (pcol parameters q.1.1 1) (pcol parameters q.1.2 1)).1
    * (((lorentzBerthelot (pcol parameters q.1.1 0) (pcol parameters q.1.2 0)
          (pcol parameters q.1.1 1) (pcol parameters q.1.2 1)).2 / q.2) ^ 6
      * (((lorentzBerthelot (pcol parameters q.1.1 0) (pcol parameters q.1.2 0)
            (pcol parameters q.1.1 1) (pcol parameters q.1.2 1)).2 / q.2) ^ 6
        - 1.0))

/-! ## Long-range dispersion correction -/

/-- Model of `_compute_dispersion_integral(r, rs, rc, sigma)`: the closed-form
antiderivative used for the switched part of the dispersion correction,
transcribed term by term (with `A = 1/(rc - rs)`). -/
noncomputable def computeDispersionIntegral (r rs rc sigma : ℝ) : ℝ :=
  sigma * sigma * (sigma * sigma) * (sigma * sigma)
    * (1 / (rc - rs) * (1 / (rc - rs)) * (1 / (rc - rs)))
    * ((sigma * sigma * (sigma * sigma) * (sigma * sigma) * (
          rs * (rs * rs) * 28
            * (6 * (rs * rs) * (1 / (rc - rs) * (1 / (rc - rs)))
              + 15 * rs * (1 / (rc - rs)) + 10)
          - r * (rs * rs) * 945
            * ((rs * rs) * (1 / (rc - rs) * (1 / (rc - rs)))
              + 2 * rs * (1 / (rc - rs)) + 1)
          + r * r * rs * 1080
            * (2 * (rs * rs) * (1 / (rc - rs) * (1 / (rc - rs)))
              + 3 * rs * (1 / (rc - rs)) + 1)
          - r * (r * r) * 420
            * (6 * (rs * rs) * (1 / (rc - rs) * (1 / (rc - rs)))
              + 6 * rs * (1 / (rc - rs)) + 1)
          + r * (r * (r * r)) * 756
            * (2 * rs * (1 / (rc - rs) * (1 / (rc - rs))) + 1 / (rc - rs))
          - r * (r * (r * (r * r))) * 378
            * (1 / (rc - rs) * (1 / (rc - rs))))
        - r * (r * (r * (r * (r * r)))) * (
          rs * (rs * rs) * 84
            * (6 * (rs * rs) * (1 / (rc - rs) * (1 / (rc - rs)))
              + 15 * rs * (1 / (rc - rs)) + 10)
          - r * (rs * rs) * 3780
            * ((rs * rs) * (1 / (rc - rs) * (1 / (rc - rs)))
              + 2 * rs * (1 / (rc - rs)) + 1)
          + r * r * rs * 7560
            * (2 * (rs * rs) * (1 / (rc - rs) * (1 / (rc - rs)))
              + 3 * rs * (1 / (rc - rs)) + 1)))
      / (252 * (r * (r * r) * (r * (r * (r * (r * (r * r)))))))
    - Real.log r * 10
      * (6 * (rs * rs) * (1 / (rc - rs) * (1 / (rc - rs)))
        + 6 * rs * (1 / (rc - rs)) + 1)
    + r * 15 * (2 * rs * (1 / (rc - rs) * (1 / (rc - rs))) + 1 / (rc - rs))
    - r * r * 3 * (1 / (rc - rs) * (1 / (rc - rs))))

/-- One entry of `(count * epsilon * torch.stack(terms)).sum(dim=-1)`:
`Σ_k count_k · ε_k · f(σ_k)`. -/
noncomputable def dispersionRow (count epsilon sigma : List ℝ) (f : ℝ → ℝ) : ℝ :=
  ((count.zip (epsilon.zip sigma)).map fun q => q.1 * q.2.1 * f q.2.2).sum

/-- Model of `_compute_dispersion_term`: the σ¹²-moment and σ⁶-moment rows, plus — when
a switch width is given — the switched-integral row evaluated between the
function's `switch_width` and `cutoff` arguments.  A switch width with no
cutoff fails the source's `assert cutoff is not None`, hence `none`. -/
noncomputable def computeDispersionTerm (count epsilon sigma : List ℝ)
    (cutoff switchWidth : Option ℝ) : Option (List ℝ) :=
  match switchWidth with
  | none => some [dispersionRow count epsilon sigma fun s => s ^ 6 * s ^ 6,
                  dispersionRow count epsilon sigma fun s => s ^ 6]
  | some sw =>
    match cutoff with
    | none => none
    | some c =>
      some [dispersionRow count epsilon sigma fun s => s ^ 6 * s ^ 6,
            dispersionRow count epsilon sigma fun s => s ^ 6,
            dispersionRow count epsilon sigma fun s =>
              computeDispersionIntegral c sw c s
                - computeDispersionIntegral sw sw c s]

/-- Column sums of the absolute vdW assignment matrix:
`assignment_matrix.abs().sum(dim=0)` at column `t`. -/
def colAbsSum (A : List (List ℝ)) (t : ℕ) : ℝ :=
  (A.map fun row => |row.getD t 0|).sum

/-- The `n_by_type` accumulation of `_compute_dispersion_correction`: for one
parameter key, sum over topologies of `n_copies` times the absolute column
sums of those vdW assignment columns whose key equals it. -/
def nByType (system : TensorSystem) (potential : TensorPotential) (key : ℕ) : ℝ :=
  (system.topologies.map fun tc =>
    (tc.2 : ℝ) * (((List.range potential.parameterKeys.length).filter fun t =>
        potential.parameterKeys.getD t 0 = key).map fun t =>
        colAbsSum (tc.1.parameters ("vdW")).assignmentMatrix t).sum).sum

/-- Model of `counts`: the per-type particle counts read back in parameter-key order. -/
def dispersionCounts (system : TensorSystem) (potential : TensorPotential) :
    List ℝ :=
  potential.parameterKeys.map fun key => nByType system potential key

/-- Same-type interaction counts `counts * (counts + 1) / 2`. -/
noncomputable def nIiInteractions (system : TensorSystem)
    (potential : TensorPotential) : List ℝ :=
  (dispersionCounts system potential).map fun c => c * (c + 1.0) / 2.0

/-- Per-type epsilon column `potential.parameters[:, 0]`. -/
def dispersionEpsIi (potential : TensorPotential) : List ℝ :=
  potential.parameters.map fun row => row.getD 0 0

/-- Per-type sigma column `potential.parameters[:, 1]`. -/
def dispersionSigIi (potential : TensorPotential) : List ℝ :=
  potential.parameters.map fun row => row.getD 1 0

/-- Cross-type interaction counts `counts[i] * counts[j]` over the strict
upper triangle of type pairs. -/
noncomputable def dispersionNIj (system : TensorSystem)
    (potential : TensorPotential) : List ℝ :=
  (triuIndices (dispersionCounts system potential).length).map fun p =>
    (dispersionCounts system potential).getD p.1 0
      * (dispersionCounts system potential).getD p.2 0

/-- Cross-type Lorentz-Berthelot epsilon values. -/
noncomputable def dispersionEpsIj (system : TensorSystem)
    (potential : TensorPotential) : List ℝ :=
  (triuIndices (dispersionCounts system potential).length).map fun p =>
    (lorentzBerthelot ((dispersionEpsIi potential).getD p.1 0)
      ((dispersionEpsIi potential).getD p.2 0)
      ((dispersionSigIi potential).getD p.1 0)
      ((dispersionSigIi potential).getD p.2 0)).1

/-- Cross-type Lorentz-Berthelot sigma values. -/
noncomputable def dispersionSigIj (system : TensorSystem)
    (potential : TensorPotential) : List ℝ :=
  (triuIndices (dispersionCounts system potential).length).map fun p =>
    (lorentzBerthelot ((dispersionEpsIi potential).getD p.1 0)
      ((dispersionEpsIi potential).getD p.2 0)
      ((dispersionSigIi potential).getD p.1 0)
      ((dispersionSigIi potential).getD p.2 0)).2

/-- Entry `k` of `(terms_ii + terms_ij) / n_interactions` with
`n_interactions = N(N+1)/2`, for the switched case. -/
noncomputable def dispersionTermsCombined (system : TensorSystem)
    (potential : TensorPotential) (c sw : ℝ) (k : ℕ) : ℝ :=
  ((((computeDispersionTerm (nIiInteractions system potential)
        (dispersionEpsIi potential) (dispersionSigIi potential)
        (some c) (some sw)).getD []).zip
      ((computeDispersionTerm (dispersionNIj system potential)
        (dispersionEpsIj system potential) (dispersionSigIj system potential)
        (some c) (some sw)).getD [])).map fun q =>
    (q.1 + q.2) / ((system.nParticles : ℝ) * ((system.nParticles : ℝ) + 1) / 2)).getD k 0

/-- Model of `_compute_dispersion_correction(system, potential, cutoff, switch_width,
volume)`.  When either optional distance is missing the source crashes (a
failed assertion, an out-of-range `terms[2]`, or arithmetic on `None`), hence
`none`; otherwise
`8π·N²·(terms[0]/(9·cutoff⁹) - terms[1]/(3·cutoff³) + terms[2])/volume` where
`cutoff` is this function's third argument. -/
noncomputable def computeDispersionCorrection (system : TensorSystem)
    (potential : TensorPotential) (cutoff switchWidth : Option ℝ)
    (volume : ℝ) : Option ℝ :=
  match cutoff, switchWidth with
  | some c, some sw =>
    some (8.0 * (system.nParticles : ℝ) ^ 2 * Real.pi
      * (dispersionTermsCombined system potential c sw 0 / (9 * c ^ 9)
        - dispersionTermsCombined system potential c sw 1 / (3 * c ^ 3)
        + dispersionTermsCombined system potential c sw 2)
      / volume)
  | _, _ => none

/-- Determinant of the 3×3 box-vector matrix (`torch.det(box_vectors)`). -/
def det3 (m : List (List ℝ)) : ℝ :=
  pcol m 0 0 * (pcol m 1 1 * pcol m 2 2 - pcol m 1 2 * pcol m 2 1)
    - pcol m 0 1 * (pcol m 1 0 * pcol m 2 2 - pcol m 1 2 * pcol m 2 0)
    + pcol m 0 2 * (pcol m 1 0 * pcol m 2 1 - pcol m 1 1 * pcol m 2 0)

/-- Model of `_compute_lj_energy_periodic`: neighbour-list pair sum plus the dispersion
correction.  The switch distance is `cutoff - switch_width` exactly when a
`switch_width` attribute column exists.  The source invokes
`_compute_dispersion_correction(system, potential, switch_width, cutoff,
volume)` positionally, so the switch distance lands in the function's
`cutoff` parameter and the cutoff in its `switch_width` parameter; the model
reproduces that argument order. -/
noncomputable def computeLjEnergyPeriodic (system : TensorSystem)
    (potential : TensorPotential) (boxVectors : List (List ℝ))
    (pairs : List (ℕ × ℕ)) (distances : List ℝ) : Option ℝ :=
  (computeDispersionCorrection system potential
      (if ("switch_width" : String) ∈ potential.attributeCols then
        some (potentialAttr potential ("cutoff")
          - potentialAttr potential ("switch_width"))
      else none)
      (some (potentialAttr potential ("cutoff")))
      (det3 boxVectors)).map fun corr =>
    ljEnergyPeriodicPairs (broadcastParameters system potential)
      (computePairScales system potential)
      (potentialAttr potential ("cutoff"))
      (if ("switch_width" : String) ∈ potential.attributeCols then
        some (potentialAttr potential ("cutoff")
          - potentialAttr potential ("switch_width"))
      else none)
      pairs distances + corr

/-- Spec-side weighted moment sum: same-type terms weighted by `n(n+1)/2` plus
cross-type terms weighted by `nᵢ·nⱼ` with Lorentz-Berthelot combined ε/σ. -/
noncomputable def specDispersionTermSum (system : TensorSystem)
    (potential : TensorPotential) (f : ℝ → ℝ) : ℝ :=
  dispersionRow (nIiInteractions system potential) (dispersionEpsIi potential)
    (dispersionSigIi potential) f
  + dispersionRow (dispersionNIj system potential)
      (dispersionEpsIj system potential) (dispersionSigIj system potential) f

/-- Spec-side dispersion correction as the claim states it:
`8π·N²/V · (term₁/(9·rc⁹) - term₂/(3·rc³) + term₃) / (N(N+1)/2)` with `rc`
the cutoff, `term₁`/`term₂` the σ¹²/σ⁶ moment sums, and `term₃` the
closed-form integral of the switched potential between the switch distance
`rs` and the cutoff `rc`. -/
noncomputable def specDispersionCorrection (system : TensorSystem)
    (potential : TensorPotential) (rc rs volume : ℝ) : ℝ :=
  8.0 * (system.nParticles : ℝ) ^ 2 * Real.pi
    * ((specDispersionTermSum system potential fun s => s ^ 12) / (9 * rc ^ 9)
      - (specDispersionTermSum system potential fun s => s ^ 6) / (3 * rc ^ 3)
      + specDispersionTermSum system potential fun s =>
          computeDispersionIntegral rc rs rc s
            - computeDispersionIntegral rs rs rc s)
    / ((system.nParticles : ℝ) * ((system.nParticles : ℝ) + 1) / 2)
    / volume

/-! ## PME grid parameters -/

/-- Model of `_PME_MIN_NODES` (matches OpenMM 8.0.0). -/
def pmeMinNodes : ℤ := 6

/-- Model of `_PME_ORDER`. -/
def pmeOrder : ℕ := 5

/-- The error tolerance fixed by `_compute_coulomb_energy_periodic`. -/
noncomputable def pmeErrorTolerance : ℝ := 0.0001

/-- Model of `_compute_pme_grid`: the Ewald damping factor and the three per-axis
reciprocal grid node counts. -/
noncomputable def computePmeGrid (boxVectors : List (List ℝ))
    (cutoff errorTolerance : ℝ) : ℤ × ℤ × ℤ × ℝ :=
  (max ⌈2.0 * (Real.sqrt (-Real.log (2.0 * errorTolerance)) / cutoff)
      / (3 * errorTolerance ^ ((1 : ℝ) / 5)) * pcol boxVectors 0 0⌉ pmeMinNodes,
   max ⌈2.0 * (Real.sqrt (-Real.log (2.0 * errorTolerance)) / cutoff)
      / (3 * errorTolerance ^ ((1 : ℝ) / 5)) * pcol boxVectors 1 1⌉ pmeMinNodes,
   max ⌈2.0 * (Real.sqrt (-Real.log (2.0 * errorTolerance)) / cutoff)
      / (3 * errorTolerance ^ ((1 : ℝ) / 5)) * pcol boxVectors 2 2⌉ pmeMinNodes,
   Real.sqrt (-Real.log (2.0 * errorTolerance)) / cutoff)

/-- Spec-side damping factor `alpha = sqrt(-ln(2·tol))/cutoff`. -/
noncomputable def specPmeAlpha (cutoff tol : ℝ) : ℝ :=
  Real.sqrt (-Real.log (2 * tol)) / cutoff

/-- Spec-side per-axis grid dimension
`max(ceil(2·alpha/(3·tol^(1/5)) · box_length), minimum_grid_nodes)` with the
default minimum of 6 nodes. -/
noncomputable def specPmeGridDim (alpha tol boxLength : ℝ) : ℤ :=
  max ⌈2 * alpha / (3 * tol ^ ((1 : ℝ) / 5)) * boxLength⌉ 6

/-! ## The kernel dispatch registry -/

/-- The `potential_energy_fn` decorator: registering a kernel under a
(handler type, energy expression) key that is already present raises a
`KeyError`; otherwise the entry is added. -/
def registerPotentialEnergyFn {κ : Type} (registry : List ((String × String) × κ))
    (handlerType energyExpression : String) (func : κ) :
    Except String (List ((String × String) × κ)) :=
  if registry.any fun e => e.1 = (handlerType, energyExpression) then
    Except.error ("A potential energy function is already defined for handler="
      ++ handlerType ++ " fn=" ++ energyExpression ++ ".")
  else
    Except.ok (registry ++ [((handlerType, energyExpression), func)])

/-- Dispatch-time lookup `_POTENTIAL_ENERGY_FUNCTIONS[(potential.type,
potential.fn)]`. -/
def lookupPotentialEnergyFn {κ : Type} (registry : List ((String × String) × κ))
    (key : String × String) : Option κ :=
  (registry.find? fun e => e.1 = key).map fun e => e.2

/-- Spec-side description of the broadcast exclusion index list: for each
topology in order, for each copy `c`, the local exclusion pairs shifted by
`base + c * n_particles`, where `base` is the particle count of all preceding
topology blocks. -/
def exclBlocks (potential : TensorPotential) :
    List (TensorTopology × ℕ) → ℕ → List (ℕ × ℕ)
  | [], _ => []
  | tc :: l, o =>
    ((List.range tc.2).flatMap fun c =>
      (tc.1.parameters potential.type).exclusions.map fun p =>
        (o + c * tc.1.nParticles + p.1, o + c * tc.1.nParticles + p.2))
    ++ exclBlocks potential l (o + tc.2 * tc.1.nParticles)

/-- Spec-side description of the broadcast scale vector: for each topology in
order, `n_copies` identical copies of its scale factors, each looked up from
the potential's attribute vector at the exclusion's stored attribute-column
index. -/
def scaleBlocks (potential : TensorPotential) :
    List (TensorTopology × ℕ) → List ℝ
  | [] => []
  | tc :: l =>
    ((List.range tc.2).flatMap fun _ =>
      (tc.1.parameters potential.type).exclusionScaleIdxs.map fun k =>
        potential.attributes.getD k 0)
    ++ scaleBlocks potential l

/-! ## Concrete fixtures used by witnesses and counterexamples -/

/-- A one-type LJ potential with cutoff 2 Å, switch width 1 Å, ε = σ = 1. -/
noncomputable def witnessPotential : TensorPotential :=
  { type := "vdW", fn := "4*epsilon*((sigma/r)**12-(sigma/r)**6)",
    parameters := [[1, 1]], parameterKeys := [0],
    attributeCols := ["cutoff", "switch_width"], attributes := [2, 1] }

/-- A one-particle topology fully assigned to parameter type 0, with no
exclusions. -/
noncomputable def witnessTopology : TensorTopology :=
  { nParticles := 1,
    parameters := fun _ =>
      { assignmentMatrix := [[1]], exclusions := [], exclusionScaleIdxs := [] } }

/-- A system of one copy of the one-particle topology. -/
noncomputable def witnessSystem : TensorSystem :=
  { topologies := [(witnessTopology, 1)] }

/-- A two-particle topology with no exclusions. -/
noncomputable def counterTopologyA : TensorTopology :=
  { nParticles := 2,
    parameters := fun _ =>
      { assignmentMatrix := [[1], [1]], exclusions := [], exclusionScaleIdxs := [] } }

/-- A two-particle topology with the single local exclusion (0, 1) whose scale
is stored in attribute column 0. -/
noncomputable def counterTopologyB : TensorTopology :=
  { nParticles := 2,
    parameters := fun _ =>
      { assignmentMatrix := [[1], [1]], exclusions := [(0, 1)],
        exclusionScaleIdxs := [0] } }

/-- A two-topology system: one copy of each two-particle topology. -/
noncomputable def counterSystem : TensorSystem :=
  { topologies := [(counterTopologyA, 1), (counterTopologyB, 1)] }

/-- A potential whose attribute vector holds the single scale factor 1/2. -/
noncomputable def counterPotential : TensorPotential :=
  { type := "Electrostatics", fn := "coul", parameters := [[1]],
    parameterKeys := [0], attributeCols := ["scale_14"], attributes := [1 / 2] }

/-! ## Theorems -/

theorem triBase_succ (n i : ℕ) : triBase n (i + 1) = triBase n i + (n - (i + 1)) := rfl

theorem triBase_two_mul (n : ℕ) : ∀ i, i ≤ n → 2 * triBase n i = i * (2 * n - i - 1)
  | 0, _ => by simp [triBase]
  | i + 1, h => by
    have ih := triBase_two_mul n i (by omega)
    obtain ⟨m, rfl⟩ : ∃ m, n = i + 1 + m := ⟨n - (i + 1), by omega⟩
    rw [triBase_succ, Nat.mul_add, ih]
    have e1 : 2 * (i + 1 + m) - i - 1 = i + 2 * m + 1 := by omega
    have e2 : i + 1 + m - (i + 1) = m := by omega
    have e3 : 2 * (i + 1 + m) - (i + 1) - 1 = i + 2 * m := by omega
    rw [e1, e2, e3]
    ring

theorem triBase_mono (n : ℕ) : Monotone (triBase n) :=
  monotone_nat_of_le_succ fun i => by rw [triBase_succ]; omega

theorem triBase_top (n : ℕ) : triBase n n = n * (n - 1) / 2 := by
  have h := triBase_two_mul n n le_rfl
  have h2 : 2 * n - n - 1 = n - 1 := by omega
  rw [h2] at h
  omega

theorem toUpperTriIdx_eq_triBase (n i j : ℕ) (hij : i < j) (hjn : j < n) :
    toUpperTriIdx n i j = triBase n i + (j - i - 1) := by
  have hin : i ≤ n := by omega
  have h := triBase_two_mul n i hin
  unfold toUpperTriIdx
  rw [← h, Nat.mul_div_cancel_left _ (by norm_num : 0 < 2)]
  omega

theorem toUpperTriIdx_lt (n i j : ℕ) (hij : i < j) (hjn : j < n) :
    toUpperTriIdx n i j < n * (n - 1) / 2 := by
  rw [toUpperTriIdx_eq_triBase n i j hij hjn, ← triBase_top n]
  have h1 : triBase n i + (j - i - 1) < triBase n (i + 1) := by
    rw [triBase_succ]; omega
  have h2 : triBase n (i + 1) ≤ triBase n n := triBase_mono n (by omega)
  omega

theorem toUpperTriIdx_inj (n i j a b : ℕ) (hij : i < j) (hjn : j < n)
    (hab : a < b) (hbn : b < n)
    (heq : toUpperTriIdx n i j = toUpperTriIdx n a b) : i = a ∧ j = b := by
  rw [toUpperTriIdx_eq_triBase n i j hij hjn,
    toUpperTriIdx_eq_triBase n a b hab hbn] at heq
  rcases lt_trichotomy i a with h | h | h
  · exfalso
    have h1 : triBase n i + (j - i - 1) < triBase n (i + 1) := by
      rw [triBase_succ]; omega
    have h2 : triBase n (i + 1) ≤ triBase n a := triBase_mono n (by omega)
    omega
  · subst h; omega
  · exfalso
    have h1 : triBase n a + (b - a - 1) < triBase n (a + 1) := by
      rw [triBase_succ]; omega
    have h2 : triBase n (a + 1) ≤ triBase n i := triBase_mono n (by omega)
    omega

theorem mem_triuIndices (n : ℕ) (p : ℕ × ℕ) :
    p ∈ triuIndices n ↔ p.1 < p.2 ∧ p.2 < n := by
  rcases p with ⟨i, j⟩
  simp only [triuIndices, List.mem_flatMap, List.mem_range, List.mem_map]
  constructor
  · rintro ⟨a, ha, b, hb, hab⟩
    rw [List.mem_range'] at hb
    obtain ⟨t, ht, rfl⟩ := hb
    cases hab
    omega
  · rintro ⟨hij, hjn⟩
    refine ⟨i, by omega, j, ?_, rfl⟩
    rw [List.mem_range']
    exact ⟨j - (i + 1), by omega, by omega⟩

theorem sum_map_list_range {M : Type} [AddCommMonoid M] (f : ℕ → M) :
    ∀ n, ((List.range n).map f).sum = ∑ i in Finset.range n, f i
  | 0 => by simp
  | n + 1 => by
    rw [List.range_succ, Finset.sum_range_succ, List.map_append,
      List.sum_append, sum_map_list_range f n]
    simp

theorem length_triuIndices (n : ℕ) : (triuIndices n).length = n * (n - 1) / 2 := by
  rw [triuIndices, List.length_flatMap]
  simp only [Function.comp_def, List.length_map, List.length_range']
  rw [sum_map_list_range fun i => n - (i + 1)]
  have h2 : ∀ i ∈ Finset.range n, n - (i + 1) = n - 1 - i := fun i _ => by omega
  rw [Finset.sum_congr rfl h2, Finset.sum_range_reflect (fun i => i) n,
    Finset.sum_range_id n]

theorem nodup_triuIndices (n : ℕ) : (triuIndices n).Nodup := by
  rw [triuIndices, List.nodup_flatMap]
  constructor
  · intro i _
    exact (List.nodup_range' ..).map fun a b h => by
      simpa using congrArg Prod.snd h
  · have h := List.nodup_range n
    refine h.pairwise_of_forall_ne fun a ha b hb hab => ?_
    intro p hp hq
    simp only [List.mem_map] at hp hq
    obtain ⟨x, _, rfl⟩ := hp
    obtain ⟨y, _, hy⟩ := hq
    exact hab (by simpa using congrArg Prod.fst hy.symm)

theorem triuIndices_drop (n : ℕ) : ∀ i, i ≤ n →
    (triuIndices n).drop (triBase n i)
      = (List.range' i (n - i)).flatMap
          fun a => (List.range' (a + 1) (n - (a + 1))).map fun j => (a, j)
  | 0, _ => by
    simp only [triBase, List.drop_zero, triuIndices, Nat.sub_zero]
    rw [List.range_eq_range']
  | i + 1, h => by
    have ih := triuIndices_drop n i (by omega)
    have key := congrArg (List.drop (n - (i + 1))) ih
    rw [List.drop_drop] at key
    rw [triBase_succ, key]
    have hsplit : n - i = (n - (i + 1)) + 1 := by omega
    rw [hsplit, List.range'_succ, List.flatMap_cons]
    exact List.drop_left' (by simp)

theorem triuIndices_getElem? (n i j : ℕ) (hij : i < j) (hjn : j < n) :
    (triuIndices n)[toUpperTriIdx n i j]? = some (i, j) := by
  rw [toUpperTriIdx_eq_triBase n i j hij hjn]
  have hdrop := triuIndices_drop n i (by omega)
  have h1 : (triuIndices n)[triBase n i + (j - i - 1)]?
      = ((triuIndices n).drop (triBase n i))[j - i - 1]? := by
    rw [List.getElem?_drop]
  rw [h1, hdrop]
  have hsplit : n - i = (n - (i + 1)) + 1 := by omega
  rw [hsplit, List.range'_succ, List.flatMap_cons]
  rw [List.getElem?_append, if_pos (by simp; omega)]
  rw [List.getElem?_map, List.getElem?_range' _ _ (by omega)]
  have : i + 1 + 1 * (j - i - 1) = j := by omega
  rw [this]
  rfl

theorem triuIndices_position (n k : ℕ) (p : ℕ × ℕ)
    (hk : (triuIndices n)[k]? = some p) : toUpperTriIdx n p.1 p.2 = k := by
  have hmem : p ∈ triuIndices n := List.getElem?_mem hk
  obtain ⟨hij, hjn⟩ := (mem_triuIndices n p).mp hmem
  have h2 := triuIndices_getElem? n p.1 p.2 hij hjn
  by_contra hne
  have hnd := nodup_triuIndices n
  have hklen : k < (triuIndices n).length := by
    by_contra hge
    rw [List.getElem?_eq_none (by omega)] at hk
    exact Option.noConfusion hk
  have hilen : toUpperTriIdx n p.1 p.2 < (triuIndices n).length := by
    rw [length_triuIndices]
    exact toUpperTriIdx_lt n p.1 p.2 hij hjn
  rw [List.getElem?_eq_getElem hklen] at hk
  rw [List.getElem?_eq_getElem hilen] at h2
  have : (triuIndices n)[k] = (triuIndices n)[toUpperTriIdx n p.1 p.2] := by
    rw [Option.some.injEq] at hk h2
    rw [hk, h2]
  exact hne (List.Nodup.getElem_inj_iff hnd |>.mp this.symm)

theorem scatterList_length (writes : List (ℕ × ℝ)) :
    ∀ base, (scatterList base writes).length = base.length := by
  induction writes with
  | nil => intro base; rfl
  | cons w ws ih =>
    intro base
    rw [scatterList, List.foldl_cons, ← scatterList, ih]
    simp

theorem scatterList_getElem?_of_ne (k : ℕ) (writes : List (ℕ × ℝ))
    (h : ∀ w ∈ writes, w.1 ≠ k) :
    ∀ base, (scatterList base writes)[k]? = base[k]? := by
  induction writes with
  | nil => intro base; rfl
  | cons w ws ih =>
    intro base
    rw [scatterList, List.foldl_cons, ← scatterList,
      ih (fun x hx => h x (List.mem_cons_of_mem w hx))]
    exact List.getElem?_set_ne (h w (List.mem_cons_self w ws))

theorem scatterList_getElem?_of_mem (k : ℕ) (v : ℝ) (writes : List (ℕ × ℝ))
    (hnd : (writes.map Prod.fst).Nodup) (hmem : (k, v) ∈ writes) :
    ∀ base, k < base.length → (scatterList base writes)[k]? = some v := by
  induction writes with
  | nil => cases hmem
  | cons w ws ih =>
    intro base hk
    rw [List.map_cons, List.nodup_cons] at hnd
    rcases List.mem_cons.mp hmem with heq | htl
    · subst heq
      rw [scatterList, List.foldl_cons, ← scatterList,
        scatterList_getElem?_of_ne k ws
          (fun x hx hx1 => hnd.1 (List.mem_map.mpr ⟨x, hx, hx1⟩))]
      rw [List.getElem?_set_self (by simpa using hk)]
    · rw [scatterList, List.foldl_cons, ← scatterList]
      exact ih hnd.2 htl _ (by simpa using hk)

theorem canonPair_swap (p : ℕ × ℕ) : canonPair (p.2, p.1) = canonPair p := by
  simp [canonPair, Nat.min_comm, Nat.max_comm]

theorem canonPair_of_lt (p : ℕ × ℕ) (h : p.1 < p.2) : canonPair p = p := by
  rcases p with ⟨i, j⟩
  simp only [canonPair]
  rw [Nat.min_eq_left (by omega), Nat.max_eq_right (by omega)]

theorem canonPair_valid (n : ℕ) (p : ℕ × ℕ) (h1 : p.1 ≠ p.2) (h2 : p.1 < n)
    (h3 : p.2 < n) : (canonPair p).1 < (canonPair p).2 ∧ (canonPair p).2 < n := by
  simp only [canonPair]
  omega

/-- Positionwise description of the dense scale vector: entry `k` holds the
stored scale of the pair whose canonical index is `k` when that pair is
excluded, and 1 otherwise. -/
theorem pairScalesVec_eq_map (n : ℕ) (excl : List (ℕ × ℕ)) (scales : List ℝ)
    (hval : ∀ p ∈ excl, p.1 ≠ p.2 ∧ p.1 < n ∧ p.2 < n)
    (hnd : (excl.map fun p => toUpperTriIdx n (canonPair p).1 (canonPair p).2).Nodup)
    (hlen : excl.length = scales.length) :
    pairScalesVec (n * (n - 1) / 2) n excl scales
      = (triuIndices n).map fun p => exclScale excl scales p := by
  have hvalc : ∀ p ∈ excl, (canonPair p).1 < (canonPair p).2 ∧ (canonPair p).2 < n :=
    fun p hp => canonPair_valid n p (hval p hp).1 (hval p hp).2.1 (hval p hp).2.2
  apply List.ext_getElem?
  intro k
  by_cases hk : k < n * (n - 1) / 2
  · have hk1 : k < (triuIndices n).length := by rw [length_triuIndices]; exact hk
    obtain ⟨p, hp⟩ : ∃ p, (triuIndices n)[k]? = some p :=
      ⟨(triuIndices n)[k], List.getElem?_eq_getElem hk1⟩
    have hpmem : p ∈ triuIndices n := List.getElem?_mem hp
    obtain ⟨hp12, hp2n⟩ := (mem_triuIndices n p).mp hpmem
    have hpk : toUpperTriIdx n p.1 p.2 = k := triuIndices_position n k p hp
    have hrhs : ((triuIndices n).map fun q => exclScale excl scales q)[k]?
        = some (exclScale excl scales p) := by
      rw [List.getElem?_map, hp]; rfl
    rw [hrhs, pairScalesVec]
    have hzipw : (excl.map fun q =>
          toUpperTriIdx n (canonPair q).1 (canonPair q).2).zip scales
        = (excl.zip scales).map
            (Prod.map (fun q => toUpperTriIdx n (canonPair q).1 (canonPair q).2) id) :=
      List.zip_map_left _ excl scales
    have hzipc : (excl.map canonPair).zip scales
        = (excl.zip scales).map (Prod.map canonPair id) :=
      List.zip_map_left canonPair excl scales
    cases hfind : ((excl.map canonPair).zip scales).find? (fun q => q.1 = p) with
    | none =>
      have hnohit : ∀ w ∈ (excl.map fun q =>
          toUpperTriIdx n (canonPair q).1 (canonPair q).2).zip scales, w.1 ≠ k := by
        intro w hwmem hwk
        rw [hzipw] at hwmem
        obtain ⟨q, hqmem, rfl⟩ := List.mem_map.mp hwmem
        have hqex : q.1 ∈ excl := (List.of_mem_zip hqmem).1
        have hcv := hvalc q.1 hqex
        have hinj := toUpperTriIdx_inj n (canonPair q.1).1 (canonPair q.1).2 p.1 p.2
          hcv.1 hcv.2 hp12 hp2n (by rw [← hpk] at hwk; exact hwk)
        have hcanon : canonPair q.1 = p := Prod.ext hinj.1 hinj.2
        have hmemc : Prod.map canonPair id q ∈ (excl.map canonPair).zip scales := by
          rw [hzipc]; exact List.mem_map_of_mem _ hqmem
        have := List.find?_eq_none.mp hfind _ hmemc
        simp only [Prod.map_fst, decide_eq_true_eq] at this
        exact this hcanon
      rw [scatterList_getElem?_of_ne k _ hnohit]
      have : exclScale excl scales p = 1 := by
        simp only [exclScale]
        rw [hfind]
      rw [this, List.getElem?_replicate, if_pos hk]
    | some qs =>
      have hqsp : qs.1 = p := by
        have := List.find?_some hfind
        simpa using this
      have hqsmem := List.mem_of_find?_eq_some hfind
      rw [hzipc] at hqsmem
      obtain ⟨q, hqmem, hqe⟩ := List.mem_map.mp hqsmem
      have hq1 : canonPair q.1 = qs.1 := by
        have := congrArg Prod.fst hqe
        simpa using this
      have hq2 : q.2 = qs.2 := by
        have := congrArg Prod.snd hqe
        simpa using this
      have hqex : q.1 ∈ excl := (List.of_mem_zip hqmem).1
      have hkey : toUpperTriIdx n (canonPair q.1).1 (canonPair q.1).2 = k := by
        rw [hq1, hqsp]; exact hpk
      have hwmem : (k, qs.2) ∈ (excl.map fun q =>
          toUpperTriIdx n (canonPair q).1 (canonPair q).2).zip scales := by
        rw [hzipw]
        apply List.mem_map.mpr
        exact ⟨q, hqmem, Prod.ext hkey hq2⟩
      have hndw : (((excl.map fun q =>
          toUpperTriIdx n (canonPair q).1 (canonPair q).2).zip scales).map
            Prod.fst).Nodup := by
        rw [List.map_fst_zip _ _ (by rw [List.length_map]; omega)]
        exact hnd
      rw [scatterList_getElem?_of_mem k qs.2 _ hndw hwmem _
        (by rw [List.length_replicate]; exact hk)]
      have : exclScale excl scales p = qs.2 := by
        simp only [exclScale]
        rw [hfind]
      rw [this]
  · rw [List.getElem?_eq_none, List.getElem?_eq_none]
    · rw [List.length_map, length_triuIndices]; omega
    · rw [pairScalesVec, scatterList_length, List.length_replicate]; omega

theorem zip_self_map_map {α β γ : Type} (l : List α) (f : α → β) (g : α → γ) :
    l.zip ((l.map f).zip (l.map g)) = l.map fun a => (a, f a, g a) := by
  induction l with
  | nil => rfl
  | cons a t ih => simp [ih]

theorem computePairwise_scales_eq (conformer : List (ℝ × ℝ × ℝ))
    (excl : List (ℕ × ℕ)) (scales : List ℝ)
    (hval : ∀ p ∈ excl, p.1 ≠ p.2 ∧ p.1 < conformer.length ∧ p.2 < conformer.length)
    (hnd : (excl.map fun p =>
      toUpperTriIdx conformer.length (canonPair p).1 (canonPair p).2).Nodup)
    (hlen : excl.length = scales.length) :
    (computePairwise conformer excl scales).2.2
      = (triuIndices conformer.length).map fun p => exclScale excl scales p := by
  show pairScalesVec (triuIndices conformer.length).length conformer.length excl scales
      = _
  rw [length_triuIndices]
  exact pairScalesVec_eq_map conformer.length excl scales hval hnd hlen

theorem toFinset_triuIndices (n : ℕ) : (triuIndices n).toFinset = pairsFinset n := by
  apply Finset.ext
  intro p
  rw [List.mem_toFinset, mem_triuIndices, pairsFinset, Finset.mem_filter,
    Finset.mem_product, Finset.mem_range, Finset.mem_range]
  constructor
  · rintro ⟨h1, h2⟩; exact ⟨⟨by omega, h2⟩, h1⟩
  · rintro ⟨⟨_, h2⟩, h1⟩; exact ⟨h1, h2⟩

theorem computeLjEnergy_eq_sum (conformer : List (ℝ × ℝ × ℝ))
    (parameters : List (List ℝ)) (excl : List (ℕ × ℕ)) (scales : List ℝ)
    (hval : ∀ p ∈ excl, p.1 ≠ p.2 ∧ p.1 < conformer.length ∧ p.2 < conformer.length)
    (hnd : (excl.map fun p =>
      toUpperTriIdx conformer.length (canonPair p).1 (canonPair p).2).Nodup)
    (hlen : excl.length = scales.length) :
    computeLjEnergy conformer parameters excl scales
      = ∑ p in pairsFinset conformer.length,
          exclScale excl scales p * ljPairEnergy conformer parameters p.1 p.2 := by
  rw [computeLjEnergy]
  rw [show (computePairwise conformer excl scales).1 = triuIndices conformer.length
    from rfl]
  rw [show (computePairwise conformer excl scales).2.1
    = (triuIndices conformer.length).map fun p =>
        sqDist (conformer.getD p.1 origin) (conformer.getD p.2 origin) from rfl]
  rw [computePairwise_scales_eq conformer excl scales hval hnd hlen]
  rw [zip_self_map_map, List.map_map]
  rw [← List.sum_toFinset _ (nodup_triuIndices conformer.length),
    toFinset_triuIndices]
  apply Finset.sum_congr rfl
  intro p _
  simp only [Function.comp_apply, ljPairEnergy]
  ring

theorem computeCoulombEnergy_eq_sum (kE : ℝ) (conformer : List (ℝ × ℝ × ℝ))
    (parameters : List (List ℝ)) (excl : List (ℕ × ℕ)) (scales : List ℝ)
    (hval : ∀ p ∈ excl, p.1 ≠ p.2 ∧ p.1 < conformer.length ∧ p.2 < conformer.length)
    (hnd : (excl.map fun p =>
      toUpperTriIdx conformer.length (canonPair p).1 (canonPair p).2).Nodup)
    (hlen : excl.length = scales.length) :
    computeCoulombEnergy kE conformer parameters excl scales
      = ∑ p in pairsFinset conformer.length,
          exclScale excl scales p * coulombPairEnergy kE conformer parameters p.1 p.2 := by
  rw [computeCoulombEnergy]
  rw [show (computePairwise conformer excl scales).1 = triuIndices conformer.length
    from rfl]
  rw [show (computePairwise conformer excl scales).2.1
    = (triuIndices conformer.length).map fun p =>
        sqDist (conformer.getD p.1 origin) (conformer.getD p.2 origin) from rfl]
  rw [computePairwise_scales_eq conformer excl scales hval hnd hlen]
  rw [zip_self_map_map, List.map_map]
  rw [← List.sum_toFinset _ (nodup_triuIndices conformer.length),
    toFinset_triuIndices]
  apply Finset.sum_congr rfl
  intro p _
  simp only [Function.comp_apply, coulombPairEnergy, distance, div_eq_mul_inv]
  ring

theorem exclScale_eq_one (excl : List (ℕ × ℕ)) (scales : List ℝ) (p : ℕ × ℕ)
    (h : ∀ q ∈ excl, canonPair q ≠ p) : exclScale excl scales p = 1 := by
  simp only [exclScale]
  have hnone : ((excl.map canonPair).zip scales).find? (fun q => q.1 = p) = none := by
    rw [List.find?_eq_none]
    intro x hx
    have hx1 : x.1 ∈ excl.map canonPair := (List.of_mem_zip hx).1
    obtain ⟨q, hq, hqe⟩ := List.mem_map.mp hx1
    simp only [decide_eq_true_eq]
    rw [← hqe]
    exact h q hq
  rw [hnone]

theorem exclScale_middle_ne (l₁ l₂ : List (ℕ × ℕ)) (s₁ s₂ : List ℝ) (m : ℕ × ℕ)
    (a : ℝ) (p : ℕ × ℕ) (hlen1 : l₁.length = s₁.length) (hne : canonPair m ≠ p) :
    exclScale (l₁ ++ m :: l₂) (s₁ ++ a :: s₂) p = exclScale (l₁ ++ l₂) (s₁ ++ s₂) p := by
  simp only [exclScale, List.map_append, List.map_cons]
  rw [List.zip_append (by rw [List.length_map]; exact hlen1),
    List.zip_append (by rw [List.length_map]; exact hlen1), List.zip_cons_cons,
    List.find?_append, List.find?_append,
    List.find?_cons_of_neg _ (by simpa using hne)]

theorem exclScale_middle_eq (l₁ l₂ : List (ℕ × ℕ)) (s₁ s₂ : List ℝ) (m : ℕ × ℕ)
    (a : ℝ) (hlen1 : l₁.length = s₁.length)
    (hnotin : ∀ q ∈ l₁, canonPair q ≠ canonPair m) :
    exclScale (l₁ ++ m :: l₂) (s₁ ++ a :: s₂) (canonPair m) = a := by
  simp only [exclScale, List.map_append, List.map_cons]
  rw [List.zip_append (by rw [List.length_map]; exact hlen1), List.zip_cons_cons,
    List.find?_append]
  have hA : ((l₁.map canonPair).zip s₁).find? (fun q => q.1 = canonPair m) = none := by
    rw [List.find?_eq_none]
    intro x hx
    have hx1 : x.1 ∈ l₁.map canonPair := (List.of_mem_zip hx).1
    obtain ⟨q, hq, hqe⟩ := List.mem_map.mp hx1
    simp only [decide_eq_true_eq]
    rw [← hqe]
    exact hnotin q hq
  rw [hA, List.find?_cons_of_pos _ (by simp)]
  rfl

/-- C4: the exhaustive enumeration yields exactly `N(N-1)/2` pairs, each with
`i < j < N`; the canonical index `idx(i,j) = i(2N-i-1)/2 + j-i-1` is a
bijection from those pairs onto `[0, N(N-1)/2)`; and the dense per-pair scale
vector has length `C(N,2)`, defaults every pair's scale to 1 and overwrites
exactly the excluded pairs' entries. -/
theorem pair_enumeration_bijection (n : ℕ) (excl : List (ℕ × ℕ)) (scales : List ℝ)
    (hval : ∀ p ∈ excl, p.1 < p.2 ∧ p.2 < n)
    (hnd : (excl.map fun p => toUpperTriIdx n (canonPair p).1 (canonPair p).2).Nodup)
    (hlen : excl.length = scales.length) :
    (triuIndices n).length = n * (n - 1) / 2
    ∧ (∀ p, p ∈ triuIndices n ↔ p.1 < p.2 ∧ p.2 < n)
    ∧ Set.BijOn (fun p : ℕ × ℕ => toUpperTriIdx n p.1 p.2)
        {p : ℕ × ℕ | p.1 < p.2 ∧ p.2 < n} (Set.Iio (n * (n - 1) / 2))
    ∧ (pairScalesVec (n * (n - 1) / 2) n excl scales).length = n * (n - 1) / 2
    ∧ (∀ i j, i < j → j < n → (i, j) ∉ excl →
        (pairScalesVec (n * (n - 1) / 2) n excl scales).getD (toUpperTriIdx n i j) 0 = 1)
    ∧ (∀ p s, (p, s) ∈ excl.zip scales →
        (pairScalesVec (n * (n - 1) / 2) n excl scales).getD
          (toUpperTriIdx n p.1 p.2) 0 = s) := by
  have hcanon : ∀ p ∈ excl, canonPair p = p := fun p hp =>
    canonPair_of_lt p (hval p hp).1
  have hzipw : (excl.map fun q =>
        toUpperTriIdx n (canonPair q).1 (canonPair q).2).zip scales
      = (excl.zip scales).map
          (Prod.map (fun q => toUpperTriIdx n (canonPair q).1 (canonPair q).2) id) :=
    List.zip_map_left _ excl scales
  refine ⟨length_triuIndices n, mem_triuIndices n, ⟨?_, ?_, ?_⟩, ?_, ?_, ?_⟩
  · intro p hp
    exact toUpperTriIdx_lt n p.1 p.2 hp.1 hp.2
  · intro p hp q hq he
    have h := toUpperTriIdx_inj n p.1 p.2 q.1 q.2 hp.1 hp.2 hq.1 hq.2 he
    exact Prod.ext h.1 h.2
  · intro m hm
    have hm1 : m < (triuIndices n).length := by
      rw [length_triuIndices]; exact hm
    have hp : (triuIndices n)[m]? = some ((triuIndices n)[m]) :=
      List.getElem?_eq_getElem hm1
    have hmem := List.getElem?_mem hp
    obtain ⟨h1, h2⟩ := (mem_triuIndices n _).mp hmem
    exact ⟨(triuIndices n)[m], ⟨h1, h2⟩, triuIndices_position n m _ hp⟩
  · rw [pairScalesVec, scatterList_length, List.length_replicate]
  · intro i j hij hjn hnotmem
    have hidx : toUpperTriIdx n i j < n * (n - 1) / 2 := toUpperTriIdx_lt n i j hij hjn
    have hne : ∀ w ∈ (excl.map fun q =>
        toUpperTriIdx n (canonPair q).1 (canonPair q).2).zip scales,
        w.1 ≠ toUpperTriIdx n i j := by
      intro w hw hwk
      rw [hzipw] at hw
      obtain ⟨q, hqmem, rfl⟩ := List.mem_map.mp hw
      simp only [Prod.map_fst] at hwk
      have hqex : q.1 ∈ excl := (List.of_mem_zip hqmem).1
      have hcq := hcanon q.1 hqex
      have hv := hval q.1 hqex
      rw [hcq] at hwk
      have h := toUpperTriIdx_inj n q.1.1 q.1.2 i j hv.1 hv.2 hij hjn hwk
      have hq : q.1 = (i, j) := Prod.ext h.1 h.2
      exact hnotmem (hq ▸ hqex)
    rw [pairScalesVec, List.getD_eq_getElem?_getD,
      scatterList_getElem?_of_ne _ _ hne, List.getElem?_replicate, if_pos hidx]
    rfl
  · intro p s hps
    have hqex : p ∈ excl := (List.of_mem_zip hps).1
    have hv := hval p hqex
    have hidx : toUpperTriIdx n p.1 p.2 < n * (n - 1) / 2 :=
      toUpperTriIdx_lt n p.1 p.2 hv.1 hv.2
    have hwmem : (toUpperTriIdx n p.1 p.2, s) ∈ (excl.map fun q =>
        toUpperTriIdx n (canonPair q).1 (canonPair q).2).zip scales := by
      rw [hzipw]
      apply List.mem_map.mpr
      refine ⟨(p, s), hps, ?_⟩
      have := hcanon p hqex
      simp [Prod.map, this]
    have hndw : (((excl.map fun q =>
        toUpperTriIdx n (canonPair q).1 (canonPair q).2).zip scales).map
          Prod.fst).Nodup := by
      rw [List.map_fst_zip _ _ (by rw [List.length_map]; omega)]
      exact hnd
    rw [pairScalesVec, List.getD_eq_getElem?_getD,
      scatterList_getElem?_of_mem _ s _ hndw hwmem _
        (by rw [List.length_replicate]; exact hidx)]
    rfl

/-- C4 witness: a 3-particle system with the single exclusion (0, 2) at scale
1/2, instantiating the hypotheses and the overwrite clause. -/
theorem pair_enumeration_bijection_witness :
    (∀ p ∈ [((0, 2) : ℕ × ℕ)], p.1 < p.2 ∧ p.2 < 3)
    ∧ (pairScalesVec (3 * (3 - 1) / 2) 3 [(0, 2)] [(1 / 2 : ℝ)]).getD
        (toUpperTriIdx 3 0 2) 0 = 1 / 2 :=
  ⟨by decide,
    (pair_enumeration_bijection 3 [(0, 2)] [(1 / 2 : ℝ)] (by decide) (by decide)
      rfl).2.2.2.2.2 (0, 2) (1 / 2) (by simp)⟩

/-- C10: the direct-path kernels are insensitive to the ordering inside each
exclusion pair: replacing an entry `(i, j)` by `(j, i)` leaves the outputs of
`compute_pairwise`, and the direct LJ and Coulomb energies, unchanged,
because each exclusion row is sorted before canonical indexing. -/
theorem exclusion_order_insensitive (kE : ℝ) (conformer : List (ℝ × ℝ × ℝ))
    (ljParams coulParams : List (List ℝ)) (l₁ l₂ : List (ℕ × ℕ)) (p : ℕ × ℕ)
    (scales : List ℝ) :
    computePairwise conformer (l₁ ++ (p.2, p.1) :: l₂) scales
      = computePairwise conformer (l₁ ++ p :: l₂) scales
    ∧ computeLjEnergy conformer ljParams (l₁ ++ (p.2, p.1) :: l₂) scales
      = computeLjEnergy conformer ljParams (l₁ ++ p :: l₂) scales
    ∧ computeCoulombEnergy kE conformer coulParams (l₁ ++ (p.2, p.1) :: l₂) scales
      = computeCoulombEnergy kE conformer coulParams (l₁ ++ p :: l₂) scales := by
  have hpw : computePairwise conformer (l₁ ++ (p.2, p.1) :: l₂) scales
      = computePairwise conformer (l₁ ++ p :: l₂) scales := by
    unfold computePairwise pairScalesVec
    rw [show ((l₁ ++ (p.2, p.1) :: l₂).map fun q =>
        toUpperTriIdx conformer.length (canonPair q).1 (canonPair q).2)
        = (l₁ ++ p :: l₂).map fun q =>
          toUpperTriIdx conformer.length (canonPair q).1 (canonPair q).2 by
      simp only [List.map_append, List.map_cons, canonPair_swap]]
  exact ⟨hpw, by unfold computeLjEnergy; rw [hpw],
    by unfold computeCoulombEnergy; rw [hpw]⟩

/-- C3: the direct Coulomb kernel returns, per conformer,
`Σ_{i<j} scale(i,j) · kE · qᵢ·qⱼ / rᵢⱼ` — where `scale` is 1 for non-excluded
pairs and the stored scale for excluded pairs and `kE` is the Coulomb
pre-factor supplied by the units library — and two unit charges at 1 Å apart
with scale 1 give exactly `kE`. -/
theorem coulomb_direct_energy_formula (kE : ℝ) (conformer : List (ℝ × ℝ × ℝ))
    (charges : List (List ℝ)) (excl : List (ℕ × ℕ)) (scales : List ℝ)
    (hval : ∀ p ∈ excl, p.1 ≠ p.2 ∧ p.1 < conformer.length ∧ p.2 < conformer.length)
    (hnd : (excl.map fun p =>
      toUpperTriIdx conformer.length (canonPair p).1 (canonPair p).2).Nodup)
    (hlen : excl.length = scales.length) :
    computeCoulombEnergy kE conformer charges excl scales
      = ∑ p in pairsFinset conformer.length,
          exclScale excl scales p * coulombPairEnergy kE conformer charges p.1 p.2
    ∧ computeCoulombEnergy kE [((0, 0, 0) : ℝ × ℝ × ℝ), (1, 0, 0)] [[1], [1]] [] []
      = kE := by
  refine ⟨computeCoulombEnergy_eq_sum kE conformer charges excl scales hval hnd hlen,
    ?_⟩
  have ht : triuIndices 2 = [(0, 1)] := by decide
  have hl : ([((0, 0, 0) : ℝ × ℝ × ℝ), (1, 0, 0)]).length = 2 := rfl
  unfold computeCoulombEnergy computePairwise
  rw [hl, ht]
  simp only [List.map_cons, List.map_nil, pairScalesVec, List.length_cons,
    List.length_nil, List.map, List.zip_cons_cons, List.zip_nil_right,
    scatterList, List.foldl_nil, List.sum_cons, List.sum_nil]
  show kE * List.getD (List.replicate 1 1) 0 1
      * pcol [[1], [1]] 0 0 * pcol [[1], [1]] 1 0
      * (Real.sqrt (sqDist (List.getD [((0 : ℝ), 0, 0), (1, 0, 0)] 0 origin)
          (List.getD [((0 : ℝ), 0, 0), (1, 0, 0)] 1 origin)))⁻¹ + 0 = kE
  have h1 : sqDist (List.getD [((0 : ℝ), 0, 0), (1, 0, 0)] 0 origin)
      (List.getD [((0 : ℝ), 0, 0), (1, 0, 0)] 1 origin) = 1 := by
    show sqDist (0, 0, 0) (1, 0, 0) = 1
    unfold sqDist
    norm_num
  rw [h1, Real.sqrt_one]
  show kE * 1 * (1 : ℝ) * (1 : ℝ) * 1⁻¹ + 0 = kE
  ring

/-- C3 witness: a concrete two-charge system with no exclusions at
`kE = 2`. -/
theorem coulomb_direct_energy_formula_witness :
    (∀ p ∈ ([] : List (ℕ × ℕ)), p.1 ≠ p.2
      ∧ p.1 < ([((0, 0, 0) : ℝ × ℝ × ℝ), (1, 0, 0)]).length
      ∧ p.2 < ([((0, 0, 0) : ℝ × ℝ × ℝ), (1, 0, 0)]).length)
    ∧ (computeCoulombEnergy 2 [((0, 0, 0) : ℝ × ℝ × ℝ), (1, 0, 0)] [[1], [1]] [] []
        = ∑ p in pairsFinset ([((0, 0, 0) : ℝ × ℝ × ℝ), (1, 0, 0)]).length,
            exclScale [] [] p
              * coulombPairEnergy 2 [((0, 0, 0) : ℝ × ℝ × ℝ), (1, 0, 0)] [[1], [1]]
                  p.1 p.2
      ∧ computeCoulombEnergy 2 [((0, 0, 0) : ℝ × ℝ × ℝ), (1, 0, 0)] [[1], [1]] [] []
        = 2) :=
  ⟨by simp,
    coulomb_direct_energy_formula 2 [((0, 0, 0) : ℝ × ℝ × ℝ), (1, 0, 0)] [[1], [1]]
      [] [] (by simp) (by simp) rfl⟩

/-- C5: in the direct LJ and Coulomb kernels, each excluded pair's
contribution is linear in its scale factor: the energy at scale `s` equals
`s` times the pair's unscaled energy plus the energy at scale 0, and scale 1
reproduces the energy with that exclusion removed. -/
theorem exclusion_scale_linearity (kE : ℝ) (conformer : List (ℝ × ℝ × ℝ))
    (ljParams coulParams : List (List ℝ)) (l₁ l₂ : List (ℕ × ℕ)) (s₁ s₂ : List ℝ)
    (i j : ℕ) (s : ℝ)
    (hl1 : l₁.length = s₁.length) (hl2 : l₂.length = s₂.length)
    (hij : i < j) (hjn : j < conformer.length)
    (hval : ∀ p ∈ l₁ ++ (i, j) :: l₂,
      p.1 ≠ p.2 ∧ p.1 < conformer.length ∧ p.2 < conformer.length)
    (hnd : ((l₁ ++ (i, j) :: l₂).map fun p =>
      toUpperTriIdx conformer.length (canonPair p).1 (canonPair p).2).Nodup) :
    computeLjEnergy conformer ljParams (l₁ ++ (i, j) :: l₂) (s₁ ++ s :: s₂)
      = s * ljPairEnergy conformer ljParams i j
        + computeLjEnergy conformer ljParams (l₁ ++ (i, j) :: l₂) (s₁ ++ 0 :: s₂)
    ∧ computeLjEnergy conformer ljParams (l₁ ++ (i, j) :: l₂) (s₁ ++ 1 :: s₂)
      = computeLjEnergy conformer ljParams (l₁ ++ l₂) (s₁ ++ s₂)
    ∧ computeCoulombEnergy kE conformer coulParams (l₁ ++ (i, j) :: l₂)
        (s₁ ++ s :: s₂)
      = s * coulombPairEnergy kE conformer coulParams i j
        + computeCoulombEnergy kE conformer coulParams (l₁ ++ (i, j) :: l₂)
            (s₁ ++ 0 :: s₂)
    ∧ computeCoulombEnergy kE conformer coulParams (l₁ ++ (i, j) :: l₂)
        (s₁ ++ 1 :: s₂)
      = computeCoulombEnergy kE conformer coulParams (l₁ ++ l₂) (s₁ ++ s₂) := by
  have hlenx : ∀ x : ℝ, (l₁ ++ (i, j) :: l₂).length = (s₁ ++ x :: s₂).length := by
    intro x; simp [hl1, hl2]
  have hvalr : ∀ p ∈ l₁ ++ l₂,
      p.1 ≠ p.2 ∧ p.1 < conformer.length ∧ p.2 < conformer.length := by
    intro p hp
    apply hval
    rcases List.mem_append.mp hp with h | h
    · exact List.mem_append_left _ h
    · exact List.mem_append_right _ (List.mem_cons_of_mem _ h)
  have hsub : List.Sublist
      ((l₁ ++ l₂).map fun p =>
        toUpperTriIdx conformer.length (canonPair p).1 (canonPair p).2)
      ((l₁ ++ (i, j) :: l₂).map fun p =>
        toUpperTriIdx conformer.length (canonPair p).1 (canonPair p).2) :=
    List.Sublist.map _ (List.Sublist.append_left (List.sublist_cons_self _ _) l₁)
  have hndr := List.Nodup.sublist hsub hnd
  have hc : canonPair (i, j) = (i, j) := canonPair_of_lt (i, j) hij
  have hmap : ((l₁ ++ (i, j) :: l₂).map fun p =>
        toUpperTriIdx conformer.length (canonPair p).1 (canonPair p).2)
      = (l₁.map fun p =>
          toUpperTriIdx conformer.length (canonPair p).1 (canonPair p).2)
        ++ toUpperTriIdx conformer.length i j
          :: (l₂.map fun p =>
            toUpperTriIdx conformer.length (canonPair p).1 (canonPair p).2) := by
    rw [List.map_append, List.map_cons]
    rw [show toUpperTriIdx conformer.length (canonPair (i, j)).1 (canonPair (i, j)).2
      = toUpperTriIdx conformer.length i j by rw [hc]]
  have hnd2 := hnd
  rw [hmap] at hnd2
  obtain ⟨hndA, hndB, hdisj⟩ := List.nodup_append.mp hnd2
  have hnotin1 : ∀ q ∈ l₁, canonPair q ≠ (i, j) := by
    intro q hq hcq
    have h1 : toUpperTriIdx conformer.length (canonPair q).1 (canonPair q).2
        ∈ l₁.map fun p =>
          toUpperTriIdx conformer.length (canonPair p).1 (canonPair p).2 :=
      List.mem_map_of_mem _ hq
    refine hdisj h1 ?_
    rw [hcq]
    exact List.mem_cons_self _ _
  have hnotin2 : ∀ q ∈ l₂, canonPair q ≠ (i, j) := by
    intro q hq hcq
    have hB := List.nodup_cons.mp hndB
    apply hB.1
    apply List.mem_map.mpr
    exact ⟨q, hq, by rw [hcq]⟩
  have hnotin12 : ∀ q ∈ l₁ ++ l₂, canonPair q ≠ (i, j) := by
    intro q hq
    rcases List.mem_append.mp hq with h | h
    · exact hnotin1 q h
    · exact hnotin2 q h
  have hscale_mid : ∀ x : ℝ,
      exclScale (l₁ ++ (i, j) :: l₂) (s₁ ++ x :: s₂) (i, j) = x := by
    intro x
    have h := exclScale_middle_eq l₁ l₂ s₁ s₂ (i, j) x hl1
      (fun q hq hcq => hnotin1 q hq (hcq.trans hc))
    rwa [hc] at h
  have hscale_ne : ∀ (x : ℝ) (p : ℕ × ℕ), p ≠ (i, j) →
      exclScale (l₁ ++ (i, j) :: l₂) (s₁ ++ x :: s₂) p
        = exclScale (l₁ ++ l₂) (s₁ ++ s₂) p := by
    intro x p hp
    exact exclScale_middle_ne l₁ l₂ s₁ s₂ (i, j) x p hl1
      (by rw [hc]; exact fun h => hp h.symm)
  have hrm_one : exclScale (l₁ ++ l₂) (s₁ ++ s₂) (i, j) = 1 :=
    exclScale_eq_one _ _ _ hnotin12
  have hmem : (i, j) ∈ pairsFinset conformer.length := by
    simp only [pairsFinset, Finset.mem_filter, Finset.mem_product, Finset.mem_range]
    exact ⟨⟨by omega, hjn⟩, hij⟩
  have hLJ := fun (x : ℝ) => computeLjEnergy_eq_sum conformer ljParams
    (l₁ ++ (i, j) :: l₂) (s₁ ++ x :: s₂) hval hnd (hlenx x)
  have hLJr := computeLjEnergy_eq_sum conformer ljParams (l₁ ++ l₂) (s₁ ++ s₂)
    hvalr hndr (by simp [hl1, hl2])
  have hCE := fun (x : ℝ) => computeCoulombEnergy_eq_sum kE conformer coulParams
    (l₁ ++ (i, j) :: l₂) (s₁ ++ x :: s₂) hval hnd (hlenx x)
  have hCEr := computeCoulombEnergy_eq_sum kE conformer coulParams (l₁ ++ l₂)
    (s₁ ++ s₂) hvalr hndr (by simp [hl1, hl2])
  have hcongLJ : ∀ x : ℝ,
      ∑ p in pairsFinset conformer.length \ {(i, j)},
        exclScale (l₁ ++ (i, j) :: l₂) (s₁ ++ x :: s₂) p
          * ljPairEnergy conformer ljParams p.1 p.2
      = ∑ p in pairsFinset conformer.length \ {(i, j)},
          exclScale (l₁ ++ l₂) (s₁ ++ s₂) p
            * ljPairEnergy conformer ljParams p.1 p.2 := by
    intro x
    apply Finset.sum_congr rfl
    intro p hp
    rw [hscale_ne x p (Finset.not_mem_singleton.mp (Finset.mem_sdiff.mp hp).2)]
  have hcongCE : ∀ x : ℝ,
      ∑ p in pairsFinset conformer.length \ {(i, j)},
        exclScale (l₁ ++ (i, j) :: l₂) (s₁ ++ x :: s₂) p
          * coulombPairEnergy kE conformer coulParams p.1 p.2
      = ∑ p in pairsFinset conformer.length \ {(i, j)},
          exclScale (l₁ ++ l₂) (s₁ ++ s₂) p
            * coulombPairEnergy kE conformer coulParams p.1 p.2 := by
    intro x
    apply Finset.sum_congr rfl
    intro p hp
    rw [hscale_ne x p (Finset.not_mem_singleton.mp (Finset.mem_sdiff.mp hp).2)]
  refine ⟨?_, ?_, ?_, ?_⟩
  · rw [hLJ s, hLJ 0, Finset.sum_eq_add_sum_diff_singleton hmem,
      Finset.sum_eq_add_sum_diff_singleton hmem, hscale_mid s, hscale_mid 0,
      hcongLJ s, hcongLJ 0]
    ring
  · rw [hLJ 1, hLJr, Finset.sum_eq_add_sum_diff_singleton hmem,
      Finset.sum_eq_add_sum_diff_singleton hmem, hscale_mid 1, hrm_one, hcongLJ 1]
  · rw [hCE s, hCE 0, Finset.sum_eq_add_sum_diff_singleton hmem,
      Finset.sum_eq_add_sum_diff_singleton hmem, hscale_mid s, hscale_mid 0,
      hcongCE s, hcongCE 0]
    ring
  · rw [hCE 1, hCEr, Finset.sum_eq_add_sum_diff_singleton hmem,
      Finset.sum_eq_add_sum_diff_singleton hmem, hscale_mid 1, hrm_one, hcongCE 1]

/-- C5 witness: two particles, one exclusion (0, 1) at scale 1/2. -/
theorem exclusion_scale_linearity_witness :
    ((0 : ℕ) < 1 ∧ (1 : ℕ) < ([((0, 0, 0) : ℝ × ℝ × ℝ), (2, 0, 0)]).length)
    ∧ (computeLjEnergy [((0, 0, 0) : ℝ × ℝ × ℝ), (2, 0, 0)] [[1, 1], [1, 1]]
          ([] ++ (0, 1) :: []) ([] ++ (1 / 2 : ℝ) :: [])
        = 1 / 2 * ljPairEnergy [((0, 0, 0) : ℝ × ℝ × ℝ), (2, 0, 0)] [[1, 1], [1, 1]] 0 1
          + computeLjEnergy [((0, 0, 0) : ℝ × ℝ × ℝ), (2, 0, 0)] [[1, 1], [1, 1]]
              ([] ++ (0, 1) :: []) ([] ++ (0 : ℝ) :: [])
      ∧ computeLjEnergy [((0, 0, 0) : ℝ × ℝ × ℝ), (2, 0, 0)] [[1, 1], [1, 1]]
          ([] ++ (0, 1) :: []) ([] ++ (1 : ℝ) :: [])
        = computeLjEnergy [((0, 0, 0) : ℝ × ℝ × ℝ), (2, 0, 0)] [[1, 1], [1, 1]]
            ([] ++ []) ([] ++ [])
      ∧ computeCoulombEnergy 3 [((0, 0, 0) : ℝ × ℝ × ℝ), (2, 0, 0)] [[1], [1]]
          ([] ++ (0, 1) :: []) ([] ++ (1 / 2 : ℝ) :: [])
        = 1 / 2 * coulombPairEnergy 3 [((0, 0, 0) : ℝ × ℝ × ℝ), (2, 0, 0)] [[1], [1]] 0 1
          + computeCoulombEnergy 3 [((0, 0, 0) : ℝ × ℝ × ℝ), (2, 0, 0)] [[1], [1]]
              ([] ++ (0, 1) :: []) ([] ++ (0 : ℝ) :: [])
      ∧ computeCoulombEnergy 3 [((0, 0, 0) : ℝ × ℝ × ℝ), (2, 0, 0)] [[1], [1]]
          ([] ++ (0, 1) :: []) ([] ++ (1 : ℝ) :: [])
        = computeCoulombEnergy 3 [((0, 0, 0) : ℝ × ℝ × ℝ), (2, 0, 0)] [[1], [1]]
            ([] ++ []) ([] ++ [])) :=
  ⟨⟨by norm_num, by norm_num⟩,
    exclusion_scale_linearity 3 [((0, 0, 0) : ℝ × ℝ × ℝ), (2, 0, 0)]
      [[1, 1], [1, 1]] [[1], [1]] [] [] [] [] 0 1 (1 / 2) rfl rfl (by norm_num)
      (by norm_num) (by simp) (by simp)⟩

/-- C2: each neighbour-list pair term of the periodic LJ kernel is multiplied
by the switching factor `S(r)` — 1 below `rs`, 0 above `rc`, and
`1 - 6x⁵ + 15x⁴ - 10x³` with `x = (r - rs)/(rc - rs)` in between — with
`rs = cutoff - switch_width`; the factor is applied exactly when the potential
has a `switch_width` attribute column, and otherwise no switching factor is
applied. -/
theorem lj_periodic_switching (system : TensorSystem) (potential : TensorPotential)
    (boxVectors : List (List ℝ)) (parameters : List (List ℝ)) (scalesV : List ℝ)
    (rs rc cutoff : ℝ) (pairs : List (ℕ × ℕ)) (distances : List ℝ)
    (hrs : rs ≤ rc) :
    (ljEnergyPeriodicPairs parameters scalesV cutoff (some rs) pairs distances
      = ((pairs.zip distances).map fun q =>
          switchFn rs cutoff q.2 * ljPeriodicRawTerm parameters scalesV q).sum)
    ∧ (ljEnergyPeriodicPairs parameters scalesV cutoff none pairs distances
      = ((pairs.zip distances).map fun q =>
          ljPeriodicRawTerm parameters scalesV q).sum)
    ∧ (∀ r, r < rs → switchFn rs rc r = 1)
    ∧ (∀ r, r > rc → switchFn rs rc r = 0)
    ∧ (∀ r, rs ≤ r → r ≤ rc → switchFn rs rc r
        = 1 - 6 * ((r - rs) / (rc - rs)) ^ 5 + 15 * ((r - rs) / (rc - rs)) ^ 4
          - 10 * ((r - rs) / (rc - rs)) ^ 3)
    ∧ (("switch_width" : String) ∈ potential.attributeCols →
        computeLjEnergyPeriodic system potential boxVectors pairs distances
          = (computeDispersionCorrection system potential
              (some (potentialAttr potential ("cutoff")
                - potentialAttr potential ("switch_width")))
              (some (potentialAttr potential ("cutoff"))) (det3 boxVectors)).map
              fun corr =>
                ljEnergyPeriodicPairs (broadcastParameters system potential)
                  (computePairScales system potential)
                  (potentialAttr potential ("cutoff"))
                  (some (potentialAttr potential ("cutoff")
                    - potentialAttr potential ("switch_width")))
                  pairs distances + corr)
    ∧ (("switch_width" : String) ∉ potential.attributeCols →
        computeLjEnergyPeriodic system potential boxVectors pairs distances
          = (computeDispersionCorrection system potential none
              (some (potentialAttr potential ("cutoff"))) (det3 boxVectors)).map
              fun corr =>
                ljEnergyPeriodicPairs (broadcastParameters system potential)
                  (computePairScales system potential)
                  (potentialAttr potential ("cutoff")) none pairs distances
                  + corr) := by
  refine ⟨?_, ?_, ?_, ?_, ?_, ?_, ?_⟩
  · unfold ljEnergyPeriodicPairs ljPeriodicRawTerm
    congr 1
    apply List.map_congr_left
    intro q _
    ring
  · unfold ljEnergyPeriodicPairs ljPeriodicRawTerm
    congr 1
    apply List.map_congr_left
    intro q _
    ring
  · intro r h
    unfold switchFn
    rw [if_neg (by push_neg; linarith), if_pos h]
  · intro r h
    unfold switchFn
    rw [if_pos h]
  · intro r h1 h2
    unfold switchFn
    rw [if_neg (by push_neg; exact h2), if_neg (by push_neg; exact h1)]
  · intro hmem
    unfold computeLjEnergyPeriodic
    rw [if_pos hmem]
  · intro hmem
    unfold computeLjEnergyPeriodic
    rw [if_neg hmem]

/-- C2 witness: the switching conjunction instantiated for `rs = 1`,
`rc = cutoff = 2` on a concrete pair list. -/
theorem lj_periodic_switching_witness :
    (1 : ℝ) ≤ 2
    ∧ ((ljEnergyPeriodicPairs [[1, 1]] [1] 2 (some 1) [(0, 1)] [3 / 2]
        = (([((0, 1) : ℕ × ℕ)].zip [(3 / 2 : ℝ)]).map fun q =>
            switchFn 1 2 q.2 * ljPeriodicRawTerm [[1, 1]] [1] q).sum)
      ∧ (ljEnergyPeriodicPairs [[1, 1]] [1] 2 none [(0, 1)] [3 / 2]
        = (([((0, 1) : ℕ × ℕ)].zip [(3 / 2 : ℝ)]).map fun q =>
            ljPeriodicRawTerm [[1, 1]] [1] q).sum)
      ∧ (∀ r, r < 1 → switchFn 1 2 r = 1)
      ∧ (∀ r, r > 2 → switchFn 1 2 r = 0)
      ∧ (∀ r, 1 ≤ r → r ≤ 2 → switchFn 1 2 r
          = 1 - 6 * ((r - 1) / (2 - 1)) ^ 5 + 15 * ((r - 1) / (2 - 1)) ^ 4
            - 10 * ((r - 1) / (2 - 1)) ^ 3)
      ∧ (("switch_width" : String) ∈ witnessPotential.attributeCols →
          computeLjEnergyPeriodic witnessSystem witnessPotential
              [[1, 0, 0], [0, 1, 0], [0, 0, 1]] [(0, 1)] [3 / 2]
            = (computeDispersionCorrection witnessSystem witnessPotential
                (some (potentialAttr witnessPotential ("cutoff")
                  - potentialAttr witnessPotential ("switch_width")))
                (some (potentialAttr witnessPotential ("cutoff")))
                (det3 [[1, 0, 0], [0, 1, 0], [0, 0, 1]])).map
                fun corr =>
                  ljEnergyPeriodicPairs
                    (broadcastParameters witnessSystem witnessPotential)
                    (computePairScales witnessSystem witnessPotential)
                    (potentialAttr witnessPotential ("cutoff"))
                    (some (potentialAttr witnessPotential ("cutoff")
                      - potentialAttr witnessPotential ("switch_width")))
                    [(0, 1)] [3 / 2] + corr)
      ∧ (("switch_width" : String) ∉ witnessPotential.attributeCols →
          computeLjEnergyPeriodic witnessSystem witnessPotential
              [[1, 0, 0], [0, 1, 0], [0, 0, 1]] [(0, 1)] [3 / 2]
            = (computeDispersionCorrection witnessSystem witnessPotential none
                (some (potentialAttr witnessPotential ("cutoff")))
                (det3 [[1, 0, 0], [0, 1, 0], [0, 0, 1]])).map
                fun corr =>
                  ljEnergyPeriodicPairs
                    (broadcastParameters witnessSystem witnessPotential)
                    (computePairScales witnessSystem witnessPotential)
                    (potentialAttr witnessPotential ("cutoff")) none
                    [(0, 1)] [3 / 2] + corr)) :=
  ⟨by norm_num,
    lj_periodic_switching witnessSystem witnessPotential
      [[1, 0, 0], [0, 1, 0], [0, 0, 1]] [[1, 1]] [1] 1 2 2 [(0, 1)] [3 / 2]
      (by norm_num)⟩

/-- C9: registering a kernel under a (handler type, energy expression) pair
that already has one fails with a fatal error, leaving the registry's
original entry for that pair; registering a fresh pair succeeds and the
kernel is retrievable at dispatch time. -/
theorem registry_duplicate_registration {κ : Type}
    (registry : List ((String × String) × κ)) (h e : String) (func f₀ : κ) :
    (lookupPotentialEnergyFn registry (h, e) = some f₀ →
      ∃ msg, registerPotentialEnergyFn registry h e func = Except.error msg
        ∧ lookupPotentialEnergyFn registry (h, e) = some f₀)
    ∧ (lookupPotentialEnergyFn registry (h, e) = none →
      ∃ registry2, registerPotentialEnergyFn registry h e func = Except.ok registry2
        ∧ lookupPotentialEnergyFn registry2 (h, e) = some func) := by
  constructor
  · intro hl
    have hcond : (registry.any fun x => x.1 = (h, e)) = true := by
      rw [List.any_eq_true]
      unfold lookupPotentialEnergyFn at hl
      cases hfind : registry.find? fun x => x.1 = (h, e) with
      | none => rw [hfind] at hl; cases hl
      | some q =>
        have h2 := List.find?_some hfind
        exact ⟨q, List.mem_of_find?_eq_some hfind, h2⟩
    refine ⟨"A potential energy function is already defined for handler="
      ++ h ++ " fn=" ++ e ++ ".", ?_, hl⟩
    unfold registerPotentialEnergyFn
    rw [if_pos hcond]
  · intro hl
    have hnone : (registry.find? fun x => x.1 = (h, e)) = none := by
      unfold lookupPotentialEnergyFn at hl
      exact Option.map_eq_none'.mp hl
    have hcond : ¬ ((registry.any fun x => x.1 = (h, e)) = true) := by
      rw [List.any_eq_true]
      rintro ⟨q, hqmem, hq⟩
      exact List.find?_eq_none.mp hnone q hqmem hq
    refine ⟨registry ++ [((h, e), func)], ?_, ?_⟩
    · unfold registerPotentialEnergyFn
      rw [if_neg hcond]
    · unfold lookupPotentialEnergyFn
      rw [List.find?_append, hnone]
      simp

/-- C9 witness: a registry holding one kernel (tagged 5) rejects a duplicate
registration keeping 5 retrievable, and an empty registry accepts the fresh
entry 7 and serves it back. -/
theorem registry_duplicate_registration_witness :
    (lookupPotentialEnergyFn [((("vdW" : String), ("lj" : String)), (5 : ℕ))]
        (("vdW"), ("lj")) = some 5
      ∧ ∃ msg, registerPotentialEnergyFn
            [((("vdW" : String), ("lj" : String)), (5 : ℕ))] "vdW" "lj" 7
          = Except.error msg
        ∧ lookupPotentialEnergyFn [((("vdW" : String), ("lj" : String)), (5 : ℕ))]
            (("vdW"), ("lj")) = some 5)
    ∧ (lookupPotentialEnergyFn ([] : List ((String × String) × ℕ))
        (("vdW"), ("lj")) = none
      ∧ ∃ registry2, registerPotentialEnergyFn
            ([] : List ((String × String) × ℕ)) "vdW" "lj" 7 = Except.ok registry2
        ∧ lookupPotentialEnergyFn registry2 (("vdW"), ("lj")) = some 7) :=
  ⟨⟨rfl, (registry_duplicate_registration
      [((("vdW" : String), ("lj" : String)), (5 : ℕ))] "vdW" "lj" 7 5).1 rfl⟩,
   ⟨rfl, (registry_duplicate_registration
      ([] : List ((String × String) × ℕ)) "vdW" "lj" 7 5).2 rfl⟩⟩

/-- C7: the PME path computes `alpha = sqrt(-ln(2 tol))/cutoff` and per-axis
grid node counts `max(ceil(2 alpha/(3 tol^(1/5)) * box_length), 6)`, with the
fixed defaults: interpolation order 5, minimum grid nodes 6, and error
tolerance 1e-4. -/
theorem pme_grid_formulas (boxVectors : List (List ℝ)) (cutoff tol : ℝ) :
    computePmeGrid boxVectors cutoff tol
      = (specPmeGridDim (specPmeAlpha cutoff tol) tol (pcol boxVectors 0 0),
         specPmeGridDim (specPmeAlpha cutoff tol) tol (pcol boxVectors 1 1),
         specPmeGridDim (specPmeAlpha cutoff tol) tol (pcol boxVectors 2 2),
         specPmeAlpha cutoff tol)
    ∧ pmeOrder = 5 ∧ pmeMinNodes = 6 ∧ pmeErrorTolerance = 1 / 10000 := by
  refine ⟨?_, rfl, rfl, by unfold pmeErrorTolerance; norm_num⟩
  unfold computePmeGrid specPmeGridDim specPmeAlpha pmeMinNodes
  norm_num

theorem flatten_replicate_length {α : Type} (M : List α) (n : ℕ) :
    ((List.replicate n M).flatten).length = n * M.length := by
  rw [List.length_flatten, List.map_replicate, List.sum_replicate, smul_eq_mul]

theorem flatten_replicate_getElem? {α : Type} (M : List α) :
    ∀ (n c p : ℕ), c < n → p < M.length →
      ((List.replicate n M).flatten)[c * M.length + p]? = M[p]?
  | 0, c, p, hc, _ => absurd hc (Nat.not_lt_zero c)
  | n + 1, 0, p, hc, hp => by
    rw [List.replicate_succ, List.flatten_cons, List.getElem?_append,
      if_pos (by simpa using hp)]
    congr 1
    omega
  | n + 1, c + 1, p, hc, hp => by
    rw [List.replicate_succ, List.flatten_cons, List.getElem?_append,
      if_neg (by push_neg; rw [Nat.succ_mul]; omega)]
    have e1 : (c + 1) * M.length + p - M.length = c * M.length + p := by
      rw [Nat.succ_mul]; omega
    rw [e1]
    exact flatten_replicate_getElem? M n c p (by omega) hp

theorem matMul_length (A B : List (List ℝ)) : (matMul A B).length = A.length := by
  rw [matMul, List.length_map]

theorem broadcastParameters_cons (tc : TensorTopology × ℕ)
    (l : List (TensorTopology × ℕ)) (potential : TensorPotential) :
    broadcastParameters ⟨tc :: l⟩ potential
      = (List.replicate tc.2
          (matMul (tc.1.parameters potential.type).assignmentMatrix
            potential.parameters)).flatten
        ++ broadcastParameters ⟨l⟩ potential := by
  rw [broadcastParameters, broadcastParameters, List.map_cons, List.flatten_cons]

theorem topologyOffset_cons_succ (tc : TensorTopology × ℕ)
    (l : List (TensorTopology × ℕ)) (t : ℕ) :
    topologyOffset ⟨tc :: l⟩ (t + 1)
      = tc.2 * tc.1.nParticles + topologyOffset ⟨l⟩ t := by
  rw [topologyOffset, topologyOffset, List.take_succ_cons, List.map_cons,
    List.sum_cons]

theorem broadcastParameters_getElem? (potential : TensorPotential) :
    ∀ (l : List (TensorTopology × ℕ)) (t : ℕ) (ht : t < l.length) (c p : ℕ),
      c < (l.get ⟨t, ht⟩).2 → p < (l.get ⟨t, ht⟩).1.nParticles →
      (∀ tc ∈ l, (tc.1.parameters potential.type).assignmentMatrix.length
        = tc.1.nParticles) →
      (broadcastParameters ⟨l⟩ potential)[topologyOffset ⟨l⟩ t
          + c * (l.get ⟨t, ht⟩).1.nParticles + p]?
        = (matMul ((l.get ⟨t, ht⟩).1.parameters potential.type).assignmentMatrix
            potential.parameters)[p]?
  | [], t, ht, c, p, hc, hp, hA => absurd ht (by simp)
  | tc :: l, 0, ht, c, p, hc, hp, hA => by
    have hget : ((tc :: l).get ⟨0, ht⟩) = tc := rfl
    rw [hget] at hc hp ⊢
    rw [broadcastParameters_cons]
    have hlen : (matMul (tc.1.parameters potential.type).assignmentMatrix
        potential.parameters).length = tc.1.nParticles := by
      rw [matMul_length, hA tc (List.mem_cons_self tc l)]
    have hoff : topologyOffset ⟨tc :: l⟩ 0 = 0 := by
      rw [topologyOffset]; simp
    rw [hoff, Nat.zero_add]
    rw [List.getElem?_append, if_pos ?hin]
    case hin =>
      rw [flatten_replicate_length, hlen]
      calc c * tc.1.nParticles + p
          < (c + 1) * tc.1.nParticles := by
            rw [Nat.succ_mul]
            omega
        _ ≤ tc.2 * tc.1.nParticles := Nat.mul_le_mul_right _ (by exact hc)
    rw [← hlen] at hp ⊢
    exact flatten_replicate_getElem? _ tc.2 c p hc hp
  | tc :: l, t + 1, ht, c, p, hc, hp, hA => by
    rw [broadcastParameters_cons, topologyOffset_cons_succ]
    have hlen : (matMul (tc.1.parameters potential.type).assignmentMatrix
        potential.parameters).length = tc.1.nParticles := by
      rw [matMul_length, hA tc (List.mem_cons_self tc l)]
    have hblock : ((List.replicate tc.2
        (matMul (tc.1.parameters potential.type).assignmentMatrix
          potential.parameters)).flatten).length = tc.2 * tc.1.nParticles := by
      rw [flatten_replicate_length, hlen]
    rw [List.getElem?_append, if_neg (by rw [hblock]; omega)]
    rw [hblock]
    have e1 : tc.2 * tc.1.nParticles + topologyOffset ⟨l⟩ t
        + c * (((tc :: l).get ⟨t + 1, ht⟩).1.nParticles) + p
        - tc.2 * tc.1.nParticles
        = topologyOffset ⟨l⟩ t + c * (((tc :: l).get ⟨t + 1, ht⟩).1.nParticles)
          + p := by omega
    rw [e1]
    exact broadcastParameters_getElem? potential l t (by simpa using ht) c p hc hp
      (fun x hx => hA x (List.mem_cons_of_mem tc hx))

/-- C6: `broadcast_parameters` returns one parameter row per full-system
particle — for each topology the rows of `assignment_matrix @ parameters`,
replicated `n_copies` times and concatenated in topology, copy, particle
order — and for a single topology with one copy it returns exactly the
topology's assignment matrix times the parameter table. -/
theorem broadcast_parameters_roundtrip (system : TensorSystem)
    (potential : TensorPotential) (T : TensorTopology)
    (hA : ∀ tc ∈ system.topologies,
      (tc.1.parameters potential.type).assignmentMatrix.length = tc.1.nParticles) :
    (broadcastParameters system potential).length = system.nParticles
    ∧ (∀ (t : ℕ) (ht : t < system.topologies.length) (c p : ℕ),
        c < (system.topologies.get ⟨t, ht⟩).2 →
        p < (system.topologies.get ⟨t, ht⟩).1.nParticles →
        (broadcastParameters system potential).getD
            (topologyOffset system t
              + c * (system.topologies.get ⟨t, ht⟩).1.nParticles + p) []
          = (matMul ((system.topologies.get
              ⟨t, ht⟩).1.parameters potential.type).assignmentMatrix
              potential.parameters).getD p [])
    ∧ broadcastParameters ⟨[(T, 1)]⟩ potential
        = matMul (T.parameters potential.type).assignmentMatrix
            potential.parameters := by
  refine ⟨?_, ?_, ?_⟩
  · rw [broadcastParameters, List.length_flatten, List.map_map,
      TensorSystem.nParticles]
    congr 1
    apply List.map_congr_left
    intro tc htc
    simp only [Function.comp_apply]
    rw [flatten_replicate_length, matMul_length, hA tc htc]
  · intro t ht c p hc hp
    rw [List.getD_eq_getElem?_getD, List.getD_eq_getElem?_getD]
    exact congrArg (fun o => o.getD ([] : List ℝ))
      (broadcastParameters_getElem? potential system.topologies t ht c p hc hp hA)
  · rw [broadcastParameters_cons, broadcastParameters]
    simp

/-- C6 witness: the two-topology fixture system instantiating the shape and
round-trip clauses. -/
theorem broadcast_parameters_roundtrip_witness :
    (∀ tc ∈ counterSystem.topologies,
      (tc.1.parameters counterPotential.type).assignmentMatrix.length
        = tc.1.nParticles)
    ∧ ((broadcastParameters counterSystem counterPotential).length
        = counterSystem.nParticles
      ∧ (∀ (t : ℕ) (ht : t < counterSystem.topologies.length) (c p : ℕ),
          c < (counterSystem.topologies.get ⟨t, ht⟩).2 →
          p < (counterSystem.topologies.get ⟨t, ht⟩).1.nParticles →
          (broadcastParameters counterSystem counterPotential).getD
              (topologyOffset counterSystem t
                + c * (counterSystem.topologies.get ⟨t, ht⟩).1.nParticles + p) []
            = (matMul ((counterSystem.topologies.get
                ⟨t, ht⟩).1.parameters counterPotential.type).assignmentMatrix
                counterPotential.parameters).getD p [])
      ∧ broadcastParameters ⟨[(counterTopologyA, 1)]⟩ counterPotential
          = matMul (counterTopologyA.parameters
              counterPotential.type).assignmentMatrix
              counterPotential.parameters) := by
  have hA : ∀ tc ∈ counterSystem.topologies,
      (tc.1.parameters counterPotential.type).assignmentMatrix.length
        = tc.1.nParticles := by
    intro tc htc
    rw [counterSystem] at htc
    rcases List.mem_cons.mp htc with rfl | htc2
    · rfl
    rcases List.mem_cons.mp htc2 with rfl | htc3
    · rfl
    cases htc3
  exact ⟨hA, broadcast_parameters_roundtrip counterSystem counterPotential
    counterTopologyA hA⟩

theorem broadcastExclusions_foldl (potential : TensorPotential) :
    ∀ (l : List (TensorTopology × ℕ)) (o : ℕ) (I : List (ℕ × ℕ)) (S : List ℝ),
      l.foldl (broadcastExclusionsStep potential) (o, I, S)
        = (o + (l.map fun tc => tc.2 * tc.1.nParticles).sum,
           I ++ exclBlocks potential l o, S ++ scaleBlocks potential l)
  | [], o, I, S => by simp [exclBlocks, scaleBlocks]
  | tc :: l, o, I, S => by
    rw [List.foldl_cons]
    have hstep : broadcastExclusionsStep potential (o, I, S) tc
        = (o + tc.2 * tc.1.nParticles,
           I ++ (List.range tc.2).flatMap fun c =>
             (tc.1.parameters potential.type).exclusions.map fun p =>
               (o + c * tc.1.nParticles + p.1, o + c * tc.1.nParticles + p.2),
           S ++ (List.range tc.2).flatMap fun _ =>
             (tc.1.parameters potential.type).exclusionScaleIdxs.map fun k =>
               potential.attributes.getD k 0) := rfl
    rw [hstep, broadcastExclusions_foldl potential l (o + tc.2 * tc.1.nParticles)]
    rw [exclBlocks, scaleBlocks]
    refine Prod.ext ?_ (Prod.ext ?_ ?_)
    · show o + tc.2 * tc.1.nParticles
          + ((l.map fun tc => tc.2 * tc.1.nParticles)).sum
        = o + (((tc :: l).map fun tc => tc.2 * tc.1.nParticles)).sum
      rw [List.map_cons, List.sum_cons]
      omega
    · show I ++ _ ++ exclBlocks potential l (o + tc.2 * tc.1.nParticles) = I ++ _
      rw [List.append_assoc]
    · show S ++ _ ++ scaleBlocks potential l = S ++ _
      rw [List.append_assoc]

theorem exclBlocks_length (potential : TensorPotential) :
    ∀ (l : List (TensorTopology × ℕ)) (o : ℕ),
      (exclBlocks potential l o).length
        = (l.map fun tc =>
            tc.2 * (tc.1.parameters potential.type).exclusions.length).sum
  | [], _ => rfl
  | tc :: l, o => by
    rw [exclBlocks, List.length_append, exclBlocks_length potential l _,
      List.map_cons, List.sum_cons, List.length_flatMap]
    congr 1
    simp only [Function.comp_def, List.length_map]
    rw [List.map_const', List.sum_replicate, smul_eq_mul, List.length_range]

theorem scaleBlocks_length (potential : TensorPotential) :
    ∀ (l : List (TensorTopology × ℕ)),
      (scaleBlocks potential l).length
        = (l.map fun tc =>
            tc.2 * (tc.1.parameters potential.type).exclusionScaleIdxs.length).sum
  | [] => rfl
  | tc :: l => by
    rw [scaleBlocks, List.length_append, scaleBlocks_length potential l,
      List.map_cons, List.sum_cons, List.length_flatMap]
    congr 1
    simp only [Function.comp_def, List.length_map]
    rw [List.map_const', List.sum_replicate, smul_eq_mul, List.length_range]

/-- C8 (amended): `broadcast_exclusions` returns one entry per (topology,
copy, local exclusion pair) — the index pairs offset by the particle count of
all preceding topology blocks plus `copy_index * n_particles`, and the scale
factors looked up from the potential's attribute vector at each exclusion's
stored attribute-column index, identically for every copy — as described by
`exclBlocks`/`scaleBlocks`. -/
theorem broadcast_exclusions_offsets (system : TensorSystem)
    (potential : TensorPotential) :
    broadcastExclusions system potential
      = (exclBlocks potential system.topologies 0,
         scaleBlocks potential system.topologies)
    ∧ (broadcastExclusions system potential).1.length
        = (system.topologies.map fun tc =>
            tc.2 * (tc.1.parameters potential.type).exclusions.length).sum
    ∧ ((∀ tc ∈ system.topologies,
          (tc.1.parameters potential.type).exclusionScaleIdxs.length
            = (tc.1.parameters potential.type).exclusions.length) →
        (broadcastExclusions system potential).2.length
          = (broadcastExclusions system potential).1.length) := by
  have hfold := broadcastExclusions_foldl potential system.topologies 0 [] []
  have hmain : broadcastExclusions system potential
      = (exclBlocks potential system.topologies 0,
         scaleBlocks potential system.topologies) := by
    rw [broadcastExclusions, hfold]
    rfl
  refine ⟨hmain, ?_, ?_⟩
  · rw [hmain]
    exact exclBlocks_length potential system.topologies 0
  · intro hlen
    rw [hmain]
    show (scaleBlocks potential system.topologies).length
      = (exclBlocks potential system.topologies 0).length
    rw [scaleBlocks_length potential system.topologies,
      exclBlocks_length potential system.topologies 0]
    congr 1
    apply List.map_congr_left
    intro tc htc
    rw [hlen tc htc]

/-- C8 counterexample: in a system whose second topology (particles 2, one
local exclusion (0, 1)) follows a two-particle topology, the claim's offset
`copy_index × n_particles = 0` predicts the entry `(0, 1)`, but the code
returns `(2, 3)`: the cross-topology base offset is also added. -/
theorem broadcast_exclusions_offset_counterexample :
    ¬ ((broadcastExclusions counterSystem counterPotential).1
        = [((0 + 0 * counterTopologyB.nParticles : ℕ),
            (1 + 0 * counterTopologyB.nParticles : ℕ))]) := by
  intro h
  have hval : (broadcastExclusions counterSystem counterPotential).1 = [(2, 3)] := rfl
  rw [hval] at h
  have : ((2 : ℕ), (3 : ℕ)) = ((0 + 0 * counterTopologyB.nParticles : ℕ),
      (1 + 0 * counterTopologyB.nParticles : ℕ)) := List.singleton_injective h
  have h2 : counterTopologyB.nParticles = 2 := rfl
  rw [h2] at this
  exact absurd this (by decide)

/-- C8 witness: the two-topology fixture, instantiating the scale-length
implication. -/
theorem broadcast_exclusions_offsets_witness :
    (∀ tc ∈ counterSystem.topologies,
      (tc.1.parameters counterPotential.type).exclusionScaleIdxs.length
        = (tc.1.parameters counterPotential.type).exclusions.length)
    ∧ (broadcastExclusions counterSystem counterPotential
        = (exclBlocks counterPotential counterSystem.topologies 0,
           scaleBlocks counterPotential counterSystem.topologies)
      ∧ (broadcastExclusions counterSystem counterPotential).1.length
          = (counterSystem.topologies.map fun tc =>
              tc.2 * (tc.1.parameters counterPotential.type).exclusions.length).sum
      ∧ ((∀ tc ∈ counterSystem.topologies,
            (tc.1.parameters counterPotential.type).exclusionScaleIdxs.length
              = (tc.1.parameters counterPotential.type).exclusions.length) →
          (broadcastExclusions counterSystem counterPotential).2.length
            = (broadcastExclusions counterSystem counterPotential).1.length)) := by
  have hlen : ∀ tc ∈ counterSystem.topologies,
      (tc.1.parameters counterPotential.type).exclusionScaleIdxs.length
        = (tc.1.parameters counterPotential.type).exclusions.length := by
    intro tc htc
    rw [counterSystem] at htc
    rcases List.mem_cons.mp htc with rfl | htc2
    · rfl
    rcases List.mem_cons.mp htc2 with rfl | htc3
    · rfl
    cases htc3
  exact ⟨hlen, broadcast_exclusions_offsets counterSystem counterPotential⟩

set_option maxHeartbeats 2000000 in
theorem dispersion_inner_symm (c s sigma : ℝ) (hc : c ≠ 0) (hs : s ≠ 0)
    (hcs : c - s ≠ 0) :
    sigma ^ 12 / (9 * c ^ 9) - sigma ^ 6 / (3 * c ^ 3)
      + (computeDispersionIntegral c s c sigma
        - computeDispersionIntegral s s c sigma)
    = sigma ^ 12 / (9 * s ^ 9) - sigma ^ 6 / (3 * s ^ 3)
      + (computeDispersionIntegral s c s sigma
        - computeDispersionIntegral c c s sigma) := by
  have hsc : s - c ≠ 0 := fun h => hcs (by linarith [sub_eq_zero.mp h])
  unfold computeDispersionIntegral
  field_simp
  ring

theorem dispersionRow_inner_swap (count eps sig : List ℝ) (c s : ℝ)
    (hc : c ≠ 0) (hs : s ≠ 0) (hcs : c - s ≠ 0) :
    dispersionRow count eps sig (fun x => x ^ 12) / (9 * c ^ 9)
      - dispersionRow count eps sig (fun x => x ^ 6) / (3 * c ^ 3)
      + dispersionRow count eps sig (fun x =>
          computeDispersionIntegral c s c x - computeDispersionIntegral s s c x)
    = dispersionRow count eps sig (fun x => x ^ 6 * x ^ 6) / (9 * s ^ 9)
      - dispersionRow count eps sig (fun x => x ^ 6) / (3 * s ^ 3)
      + dispersionRow count eps sig (fun x =>
          computeDispersionIntegral s c s x
            - computeDispersionIntegral c c s x) := by
  unfold dispersionRow
  generalize count.zip (eps.zip sig) = L
  induction L with
  | nil => simp
  | cons q L ih =>
    simp only [List.map_cons, List.sum_cons]
    have hel := dispersion_inner_symm c s q.2.2 hc hs hcs
    linear_combination q.1 * q.2.1 * hel + ih

/-- C1: the periodic LJ path returns the neighbour-list pair sum plus a
dispersion tail correction equal to
`8π·N²/V · (term₁/(9·rc⁹) - term₂/(3·rc³) + term₃) / (N(N+1)/2)` with `rc`
the potential's cutoff attribute, `V = det(box)`, and the three moment sums
weighted by `n(n+1)/2` same-type and `nᵢnⱼ` Lorentz-Berthelot cross-type
interaction counts, `term₃` integrating the switched potential between the
switch distance and the cutoff.  (The source passes the switch distance and
cutoff swapped into `_compute_dispersion_correction`; the resulting value is
nevertheless the claimed one because the combined expression is symmetric
under that swap.) -/
theorem lj_dispersion_correction_formula (system : TensorSystem)
    (potential : TensorPotential) (boxVectors : List (List ℝ))
    (pairs : List (ℕ × ℕ)) (distances : List ℝ)
    (hsw : ("switch_width" : String) ∈ potential.attributeCols)
    (hc : potentialAttr potential ("cutoff") ≠ 0)
    (hrs : potentialAttr potential ("cutoff")
      - potentialAttr potential ("switch_width") ≠ 0)
    (hw : potentialAttr potential ("switch_width") ≠ 0) :
    computeLjEnergyPeriodic system potential boxVectors pairs distances
      = some (ljEnergyPeriodicPairs (broadcastParameters system potential)
            (computePairScales system potential)
            (potentialAttr potential ("cutoff"))
            (some (potentialAttr potential ("cutoff")
              - potentialAttr potential ("switch_width")))
            pairs distances
          + specDispersionCorrection system potential
              (potentialAttr potential ("cutoff"))
              (potentialAttr potential ("cutoff")
                - potentialAttr potential ("switch_width"))
              (det3 boxVectors)) := by
  have hcs : potentialAttr potential ("cutoff")
      - (potentialAttr potential ("cutoff")
        - potentialAttr potential ("switch_width")) ≠ 0 := by
    have e : potentialAttr potential ("cutoff")
        - (potentialAttr potential ("cutoff")
          - potentialAttr potential ("switch_width"))
        = potentialAttr potential ("switch_width") := by ring
    rw [e]
    exact hw
  unfold computeLjEnergyPeriodic
  rw [if_pos hsw]
  have hkey : computeDispersionCorrection system potential
      (some (potentialAttr potential ("cutoff")
        - potentialAttr potential ("switch_width")))
      (some (potentialAttr potential ("cutoff"))) (det3 boxVectors)
      = some (specDispersionCorrection system potential
          (potentialAttr potential ("cutoff"))
          (potentialAttr potential ("cutoff")
            - potentialAttr potential ("switch_width"))
          (det3 boxVectors)) := by
    rw [computeDispersionCorrection]
    congr 1
    have hii := dispersionRow_inner_swap (nIiInteractions system potential)
      (dispersionEpsIi potential) (dispersionSigIi potential)
      (potentialAttr potential ("cutoff"))
      (potentialAttr potential ("cutoff")
        - potentialAttr potential ("switch_width")) hc hrs hcs
    have hij := dispersionRow_inner_swap (dispersionNIj system potential)
      (dispersionEpsIj system potential) (dispersionSigIj system potential)
      (potentialAttr potential ("cutoff"))
      (potentialAttr potential ("cutoff")
        - potentialAttr potential ("switch_width")) hc hrs hcs
    have e0 : dispersionTermsCombined system potential
        (potentialAttr potential ("cutoff")
          - potentialAttr potential ("switch_width"))
        (potentialAttr potential ("cutoff")) 0
        = (dispersionRow (nIiInteractions system potential)
              (dispersionEpsIi potential) (dispersionSigIi potential)
              (fun x => x ^ 6 * x ^ 6)
            + dispersionRow (dispersionNIj system potential)
              (dispersionEpsIj system potential) (dispersionSigIj system potential)
              (fun x => x ^ 6 * x ^ 6))
          / ((system.nParticles : ℝ) * ((system.nParticles : ℝ) + 1) / 2) := rfl
    have e1 : dispersionTermsCombined system potential
        (potentialAttr potential ("cutoff")
          - potentialAttr potential ("switch_width"))
        (potentialAttr potential ("cutoff")) 1
        = (dispersionRow (nIiInteractions system potential)
              (dispersionEpsIi potential) (dispersionSigIi potential)
              (fun x => x ^ 6)
            + dispersionRow (dispersionNIj system potential)
              (dispersionEpsIj system potential) (dispersionSigIj system potential)
              (fun x => x ^ 6))
          / ((system.nParticles : ℝ) * ((system.nParticles : ℝ) + 1) / 2) := rfl
    have e2 : dispersionTermsCombined system potential
        (potentialAttr potential ("cutoff")
          - potentialAttr potential ("switch_width"))
        (potentialAttr potential ("cutoff")) 2
        = (dispersionRow (nIiInteractions system potential)
              (dispersionEpsIi potential) (dispersionSigIi potential)
              (fun x => computeDispersionIntegral
                  (potentialAttr potential ("cutoff")
                    - potentialAttr potential ("switch_width"))
                  (potentialAttr potential ("cutoff"))
                  (potentialAttr potential ("cutoff")
                    - potentialAttr potential ("switch_width")) x
                - computeDispersionIntegral (potentialAttr potential ("cutoff"))
                  (potentialAttr potential ("cutoff"))
                  (potentialAttr potential ("cutoff")
                    - potentialAttr potential ("switch_width")) x)
            + dispersionRow (dispersionNIj system potential)
              (dispersionEpsIj system potential) (dispersionSigIj system potential)
              (fun x => computeDispersionIntegral
                  (potentialAttr potential ("cutoff")
                    - potentialAttr potential ("switch_width"))
                  (potentialAttr potential ("cutoff"))
                  (potentialAttr potential ("cutoff")
                    - potentialAttr potential ("switch_width")) x
                - computeDispersionIntegral (potentialAttr potential ("cutoff"))
                  (potentialAttr potential ("cutoff"))
                  (potentialAttr potential ("cutoff")
                    - potentialAttr potential ("switch_width")) x))
          / ((system.nParticles : ℝ) * ((system.nParticles : ℝ) + 1) / 2) := rfl
    rw [e0, e1, e2]
    unfold specDispersionCorrection specDispersionTermSum
    linear_combination (-(8.0 * (system.nParticles : ℝ) ^ 2 * Real.pi
      / (det3 boxVectors)
      / ((system.nParticles : ℝ) * ((system.nParticles : ℝ) + 1) / 2))) * (hii + hij)
  rw [hkey]
  rfl

/-- C1 witness: the one-particle fixture system (ε = σ = 1, cutoff 2 Å,
switch width 1 Å) in a 10 Å cubic box. -/
theorem lj_dispersion_correction_formula_witness :
    (("switch_width" : String) ∈ witnessPotential.attributeCols
      ∧ potentialAttr witnessPotential ("cutoff") ≠ 0
      ∧ potentialAttr witnessPotential ("cutoff")
          - potentialAttr witnessPotential ("switch_width") ≠ 0
      ∧ potentialAttr witnessPotential ("switch_width") ≠ 0)
    ∧ computeLjEnergyPeriodic witnessSystem witnessPotential
        [[10, 0, 0], [0, 10, 0], [0, 0, 10]] [] []
      = some (ljEnergyPeriodicPairs
            (broadcastParameters witnessSystem witnessPotential)
            (computePairScales witnessSystem witnessPotential)
            (potentialAttr witnessPotential ("cutoff"))
            (some (potentialAttr witnessPotential ("cutoff")
              - potentialAttr witnessPotential ("switch_width")))
            [] []
          + specDispersionCorrection witnessSystem witnessPotential
              (potentialAttr witnessPotential ("cutoff"))
              (potentialAttr witnessPotential ("cutoff")
                - potentialAttr witnessPotential ("switch_width"))
              (det3 [[10, 0, 0], [0, 10, 0], [0, 0, 10]])) := by
  have h2 : potentialAttr witnessPotential ("cutoff") = 2 := rfl
  have h1 : potentialAttr witnessPotential ("switch_width") = 1 := rfl
  have hsw : ("switch_width" : String) ∈ witnessPotential.attributeCols := by
    show ("switch_width" : String) ∈ [("cutoff" : String), ("switch_width" : String)]
    simp
  have hc : potentialAttr witnessPotential ("cutoff") ≠ 0 := by
    rw [h2]; norm_num
  have hrs : potentialAttr witnessPotential ("cutoff")
      - potentialAttr witnessPotential ("switch_width") ≠ 0 := by
    rw [h2, h1]; norm_num
  have hw : potentialAttr witnessPotential ("switch_width") ≠ 0 := by
    rw [h1]; norm_num
  exact ⟨⟨hsw, hc, hrs, hw⟩,
    lj_dispersion_correction_formula witnessSystem witnessPotential
      [[10, 0, 0], [0, 10, 0], [0, 0, 10]] [] [] hsw hc hrs hw⟩

end Smee

